import Mathlib

/-!
Shallow embedding of `src/pyprudens/classes.py` (the single source file of the
`pyprudens` repository) and verification of its specification claims.

Python `str` values are modelled as `List Char` (the repository only handles
rule text; the model covers the ASCII behaviour of the Python string methods
used by the source).  Python exceptions raised by the parsing functions are
modelled with `Except PyError`.  Python `set` plus `sorted` in
`get_full_context` is modelled by first-occurrence deduplication followed by a
stable sort; this coincides with CPython's behaviour whenever the sort keys of
distinct elements differ (set iteration order only influences the relative
order of elements with equal sort keys).
-/

deriving instance DecidableEq for Except

/-- Convenience: the character list of a string literal. -/
def strL (s : String) : List Char := s.data

/-- ASCII whitespace characters removed by Python `str.strip()`. -/
def pyWS (c : Char) : Bool :=
  c == ' ' || c == '\t' || c == '\n' || c == '\r' || c == '\x0b' || c == '\x0c'

/-- Python `str.strip()`: drop leading and trailing whitespace. -/
def pyStrip (s : List Char) : List Char :=
  ((s.dropWhile pyWS).reverse.dropWhile pyWS).reverse

/-- Python `str.rstrip(";")`: drop all trailing semicolons. -/
def pyRstripSemi (s : List Char) : List Char :=
  (s.reverse.dropWhile (fun c => c == ';')).reverse

/-- Python `str.lstrip(cutset)`: drop leading characters that belong to the
character set `cutset` (Python treats the argument as a set of characters). -/
def pyLstripAny (cutset : List Char) (s : List Char) : List Char :=
  s.dropWhile (fun c => cutset.elem c)

/-- Python `str.replace("\n", " ")` (single-character replacement). -/
def pyReplaceNlSpace (s : List Char) : List Char :=
  s.map (fun c => if c = '\n' then ' ' else c)

/-- Worker for Python `str.split(sep)` with a non-empty separator, written with
explicit fuel so that it is structurally recursive (and hence reduces inside
`decide`).  `pySplit` always supplies enough fuel. -/
def splitAuxF (sep : List Char) : Nat → List Char → List Char → List (List Char)
  | 0, _, acc => [acc.reverse]
  | fuel + 1, s, acc =>
    match s with
    | [] => [acc.reverse]
    | c :: cs =>
      if sep.isPrefixOf (c :: cs) then
        acc.reverse :: splitAuxF sep fuel (cs.drop (sep.length - 1)) []
      else
        splitAuxF sep fuel cs (c :: acc)

/-- Python `str.split(sep)` for a non-empty separator `sep`: leftmost-first,
non-overlapping, keeping empty pieces (`"".split(sep) = [""]`). -/
def pySplit (sep s : List Char) : List (List Char) :=
  splitAuxF sep (s.length + 1) s []

/-- Python `sep.join(parts)`. -/
def joinSep (sep : List Char) : List (List Char) → List Char
  | [] => []
  | [p] => p
  | p :: ps => p ++ sep ++ joinSep sep ps

/-- Python substring test `needle in hay`. -/
def containsSub (needle hay : List Char) : Bool :=
  hay.tails.any (fun t => needle.isPrefixOf t)

/-- The delimiter `" :: "`. -/
def sepSC : List Char := [' ', ':', ':', ' ']

/-- The delimiter `" implies "`. -/
def sepImpl : List Char := [' ', 'i', 'm', 'p', 'l', 'i', 'e', 's', ' ']

/-- The word `"implies"` (no surrounding spaces). -/
def implW : List Char := ['i', 'm', 'p', 'l', 'i', 'e', 's']

/-- The body-literal separator `", "`. -/
def commaSp : List Char := [',', ' ']

/-- The knowledge-base marker `"@KnowledgeBase"`. -/
def kbMarker : List Char := ['@', 'K', 'n', 'o', 'w', 'l', 'e', 'd', 'g', 'e', 'B', 'a', 's', 'e']

/-- Decimal digit character for `d < 10` (Python `str` of a digit). -/
def digitCh (d : Nat) : Char := Char.ofNat (48 + d)

/-- Fuel-driven worker producing the decimal digits of a natural number. -/
def natDigitsAux : Nat → Nat → List Char → List Char
  | 0, _, acc => acc
  | fuel + 1, n, acc =>
    if n < 10 then digitCh n :: acc
    else natDigitsAux fuel (n / 10) (digitCh (n % 10) :: acc)

/-- Decimal representation of a natural number, as Python `f"{n}"` renders it. -/
def natDigits (n : Nat) : List Char := natDigitsAux (n + 1) n []

/-- Exceptions raised by the parsing functions of `classes.py`. -/
inductive PyError
  /-- `AssertionError` from `PrudensRule.from_string` (missing delimiter). -/
  | assertMalformedRule
  /-- `AssertionError` from `PrudensKnowledgeBase.from_string` (missing marker). -/
  | assertMalformedKB
  /-- `IndexError` from indexing `[1]` into a too-short split result. -/
  | indexErr
  /-- `ValueError` from unpacking a split result that does not have 2 items. -/
  | valueErr
deriving DecidableEq, Repr

/-- The `PrudensLiteral` pydantic model of `classes.py`. -/
structure PrudensLiteral where
  name : List Char
  sign : Bool
  isJS : Bool
  isEquality : Bool
  isInequality : Bool
  isAction : Bool
  arity : Int
deriving DecidableEq, Repr

/-- `PrudensLiteral.to_string`: `name` prefixed with `-` iff `sign` is false. -/
def PrudensLiteral.to_string (l : PrudensLiteral) : List Char :=
  if l.sign then l.name else '-' :: l.name

/-- `to_prudens_literal` of `classes.py`:
`name = lit.lstrip("-")`, `sign = "-" not in lit`, metadata fields at their
fixed defaults.  (The Python `@cache` memoisation is a pure-function cache and
has no behavioural content.)  The returned dict is modelled by the record. -/
def to_prudens_literal (lit : List Char) : PrudensLiteral :=
  { name := lit.dropWhile (fun c => c == '-')
    sign := !(lit.elem '-')
    isJS := false
    isEquality := false
    isInequality := false
    isAction := false
    arity := 0 }

/-- The `PrudensRule` frozen dataclass of `classes.py`. -/
structure PrudensRule where
  body : List (List Char)
  head : List Char
  added_as : List Char := []
  active : Bool := true
deriving DecidableEq, Repr

/-- `PrudensRule.__eq__`: head strings equal and the *sets* of body tokens
equal (order-insensitive, duplicates collapse). -/
def ruleEqb (r₁ r₂ : PrudensRule) : Bool :=
  r₁.body.all (fun t => r₂.body.elem t) &&
    r₂.body.all (fun t => r₁.body.elem t) &&
    r₁.head == r₂.head

/-- The tuple of field values consumed by the `@dataclass(frozen=True)`
generated `__hash__` of `PrudensRule`.  Because the class defines `__eq__`
manually (which sets `__hash__ = None` in the class dict before the decorator
runs), the dataclass machinery installs
`__hash__ = hash((self.body, self.head, self.added_as, self.active))`, i.e. a
function of the ordered field tuple modelled here.  Python's `hash` applied on
top is deterministic in the tuple, so two rules hash alike exactly when they
collide or agree on this tuple. -/
def ruleHashFields (r : PrudensRule) : List (List Char) × List Char × List Char × Bool :=
  (r.body, r.head, r.added_as, r.active)

/-- `PrudensRule.from_string`: assert both delimiters are present, then
`rule_string.strip().rstrip(";").split(" :: ")[1].split(" implies ")` unpacked
into context and head, body split on `", "`, head stripped. -/
def PrudensRule.from_string (rule_string : List Char) (added_as : List Char := [])
    (active : Bool := true) : Except PyError PrudensRule :=
  if !(containsSub sepSC rule_string && containsSub sepImpl rule_string) then
    .error .assertMalformedRule
  else
    match (pySplit sepSC (pyRstripSemi (pyStrip rule_string)))[1]? with
    | none => .error .indexErr
    | some seg =>
      match pySplit sepImpl seg with
      | [ctx, hd] =>
        .ok { body := pySplit commaSp ctx, head := pyStrip hd
              added_as := added_as, active := active }
      | _ => .error .valueErr

/-- The rule-name argument of `PrudensRule.to_string`: omitted (`None`), an
integer (rendered `R<i>`; the repository only ever passes `enumerate` indices,
so natural numbers), or a string used verbatim. -/
inductive RuleName
  | omitted
  | int (i : Nat)
  | str (s : List Char)
deriving DecidableEq, Repr

/-- The name text produced by the dispatch at the top of `PrudensRule.to_string`. -/
def RuleName.render : RuleName → List Char
  | .omitted => ['R']
  | .int i => 'R' :: natDigits i
  | .str s => s

/-- `PrudensRule.to_string`:
`" ".join([rule_name, "::", ", ".join(body), "implies", head + ";"])`. -/
def PrudensRule.to_string (r : PrudensRule) (rule_name : RuleName) : List Char :=
  joinSep [' ']
    [rule_name.render, [':', ':'], joinSep commaSp r.body, implW, r.head ++ [';']]

/-- The `PrudensKnowledgeBase` frozen dataclass of `classes.py`. -/
structure PrudensKnowledgeBase where
  rules : List PrudensRule
deriving DecidableEq, Repr

/-- `PrudensKnowledgeBase.__eq__`: exact, order-sensitive tuple equality of the
rule sequences, which compares the rules elementwise with `PrudensRule.__eq__`. -/
def kbEqb (k₁ k₂ : PrudensKnowledgeBase) : Bool :=
  k₁.rules.length == k₂.rules.length &&
    (k₁.rules.zip k₂.rules).all (fun p => ruleEqb p.1 p.2)

/-- `PrudensKnowledgeBase.number_of_active_rules`. -/
def PrudensKnowledgeBase.number_of_active_rules (kb : PrudensKnowledgeBase) : Nat :=
  (kb.rules.filter (fun r => r.active)).length

/-- The statements rendered by `PrudensKnowledgeBase.to_string`:
`[rule.to_string(i) for i, rule in enumerate(self.rules, start=1) if rule.active]`;
the counter `i` runs over *all* rules (the `enumerate` happens before the
`active` filter). -/
def activeStatements : Nat → List PrudensRule → List (List Char)
  | _, [] => []
  | i, r :: rs =>
    if r.active then r.to_string (.int i) :: activeStatements (i + 1) rs
    else activeStatements (i + 1) rs

/-- `PrudensKnowledgeBase.to_string(sep)` (default separator `"\n"`). -/
def PrudensKnowledgeBase.to_string (kb : PrudensKnowledgeBase)
    (sep : List Char := ['\n']) : List Char :=
  joinSep sep (kbMarker :: activeStatements 1 kb.rules)

/-- `tuple(map(PrudensRule.from_string, rules_str))`: left-to-right parsing of
the candidate statements, propagating the first Python exception. -/
def parseRuleList : List (List Char) → Except PyError (List PrudensRule)
  | [] => .ok []
  | c :: cs =>
    match PrudensRule.from_string c with
    | .error e => .error e
    | .ok r =>
      match parseRuleList cs with
      | .error e => .error e
      | .ok rs => .ok (r :: rs)

/-- `PrudensKnowledgeBase.from_string`: assert the stripped text starts with
`"@KnowledgeBase"`, then strip, collapse newlines to spaces, `lstrip` the
marker's character set, strip again, split on `";"`, keep the non-empty
candidates, strip each, and parse each with `PrudensRule.from_string`. -/
def PrudensKnowledgeBase.from_string (kb_string : List Char) :
    Except PyError PrudensKnowledgeBase :=
  if !(kbMarker.isPrefixOf (pyStrip kb_string)) then .error .assertMalformedKB
  else
    match parseRuleList
        (((pySplit [';']
            (pyStrip (pyLstripAny kbMarker
              (pyReplaceNlSpace (pyStrip kb_string))))).filter
          (fun r => !r.isEmpty)).map pyStrip) with
    | .error e => .error e
    | .ok rs => .ok ⟨rs⟩

/-- The exchange-form rule object produced by
`PrudensKnowledgeBase.to_prudens_kb_json_object`. -/
structure PrudensRuleObj where
  name : List Char
  body : List PrudensLiteral
  head : PrudensLiteral
deriving DecidableEq, Repr

/-- The exchange-form knowledge-base object. -/
structure PrudensKbObj where
  type : List Char
  kb : List PrudensRuleObj
  imports : List Char
  warnings : List (List Char)
deriving DecidableEq, Repr

/-- The rule objects built by `to_prudens_kb_json_object`:
`[... for i, rule in enumerate(self.rules) if rule.active]` — the counter `i`
is 0-based and runs over *all* rules. -/
def activeRuleObjs : Nat → List PrudensRule → List PrudensRuleObj
  | _, [] => []
  | i, r :: rs =>
    if r.active then
      { name := 'R' :: natDigits i
        body := r.body.map to_prudens_literal
        head := to_prudens_literal r.head } :: activeRuleObjs (i + 1) rs
    else activeRuleObjs (i + 1) rs

/-- `PrudensKnowledgeBase.to_prudens_kb_json_object`. -/
def PrudensKnowledgeBase.to_prudens_kb_json_object (kb : PrudensKnowledgeBase) :
    PrudensKbObj :=
  { type := strL "output"
    kb := activeRuleObjs 0 kb.rules
    imports := []
    warnings := [] }

/-- Digit test used by `natural_sort_key` (`str.isdigit` on ASCII). -/
def isDigitCh (c : Char) : Bool := '0' ≤ c && c ≤ '9'

/-- Fuel-driven worker for `re.split(r"(\d+)", s)`: alternating maximal
non-digit and (captured) digit runs, with possibly-empty non-digit pieces at
the boundaries. -/
def reSplitDigitsAux : Nat → List Char → List (List Char)
  | 0, s => [s]
  | fuel + 1, s =>
    let nd := s.takeWhile (fun c => !(isDigitCh c))
    let rest := s.dropWhile (fun c => !(isDigitCh c))
    match rest with
    | [] => [nd]
    | _ =>
      nd :: rest.takeWhile isDigitCh :: reSplitDigitsAux fuel (rest.dropWhile isDigitCh)

/-- `re.split(r"(\d+)", s)` from `natural_sort_key`. -/
def reSplitDigits (s : List Char) : List (List Char) :=
  reSplitDigitsAux (s.length + 1) s

/-- Value of a decimal digit string, Python `int(t)`. -/
def digitsToNat (t : List Char) : Nat :=
  t.foldl (fun n c => n * 10 + (c.toNat - 48)) 0

/-- `natural_sort_key` of `get_full_context`:
`[int(t) if t.isdigit() else t.lower() for t in _nsre.split(s)]`.  Key items
are integers at the digit positions and lowercased strings elsewhere; the two
kinds never meet at the same position when two genuine keys are compared
(pieces alternate string/int in lockstep), so the arbitrary `inl < inr`
ordering of the lexicographic sum never influences a comparison the Python
code performs. -/
def natural_sort_key (s : List Char) : List (ℕ ⊕ₗ List Char) :=
  (reSplitDigits s).map fun t =>
    if !t.isEmpty && t.all isDigitCh then toLex (Sum.inl (digitsToNat t))
    else toLex (Sum.inr (t.map Char.toLower))

/-- The comparison `natural_sort_key a ≤ natural_sort_key b` used to model
Python's `sorted(..., key=natural_sort_key)`. -/
def ctxLe (a b : List Char) : Prop := natural_sort_key a ≤ natural_sort_key b

instance : DecidableRel ctxLe := fun a b =>
  inferInstanceAs (Decidable (natural_sort_key a ≤ natural_sort_key b))

instance : IsTotal (List Char) ctxLe :=
  ⟨fun a b => le_total (natural_sort_key a) (natural_sort_key b)⟩

instance : IsTrans (List Char) ctxLe := ⟨fun _ _ _ h₁ h₂ => le_trans h₁ h₂⟩

/-- The reserved token `"true"`. -/
def trueTok : List Char := ['t', 'r', 'u', 'e']

/-- The reserved token `"empty"`. -/
def emptyTok : List Char := ['e', 'm', 'p', 't', 'y']

/-- `literal.replace("-", "")`: delete every `-` character. -/
def stripDashes (t : List Char) : List Char := t.filter (fun c => !(c == '-'))

/-- One step of the `full_context` accumulation: skip the raw reserved tokens
`"true"`/`"empty"`, otherwise add the dash-stripped token to the set (modelled
as append-if-absent, preserving first-occurrence order). -/
def ctxAdd (acc : List (List Char)) (t : List Char) : List (List Char) :=
  if t = trueTok || t = emptyTok then acc
  else if acc.elem (stripDashes t) then acc else acc ++ [stripDashes t]

/-- The contents of the `full_context` set: for every rule (active and
inactive alike) and every raw body token, in iteration order. -/
def fullContextRaw (kb : PrudensKnowledgeBase) : List (List Char) :=
  (kb.rules.flatMap (fun r => r.body)).foldl ctxAdd []

/-- `PrudensKnowledgeBase.get_full_context`: the set contents sorted with
`natural_sort_key` (stable sort, modelling Python's `sorted`). -/
def PrudensKnowledgeBase.get_full_context (kb : PrudensKnowledgeBase) :
    List (List Char) :=
  List.insertionSort ctxLe (fullContextRaw kb)

/-- No occurrence of `sep` starts strictly inside `p ++ sep` before the
boundary position `p.length`. -/
def NoMid (sep p : List Char) : Prop :=
  ∀ q, q <:+ p → q ≠ [] → ¬ sep <+: (q ++ sep)

/-- Characters that keep a token clear of every delimiter used by the parsers
(whitespace, `,`, `;`, `:`). -/
def safeChar (c : Char) : Bool :=
  !(pyWS c) && !(c == ',') && !(c == ';') && !(c == ':')

/-- A robust literal token: non-empty and made of safe characters only. -/
def safeTok (t : List Char) : Bool := !t.isEmpty && t.all safeChar

/-- The statement core (everything but the trailing semicolon). -/
def stmtCore (r : PrudensRule) (N : List Char) : List Char :=
  N ++ sepSC ++ (joinSep commaSp r.body ++ sepImpl ++ r.head)

/-- Token robustness of one rule: non-empty body, safe body/head tokens, and no
body token after the first equal to the bare word `implies`. -/
def safeRule (r : PrudensRule) : Bool :=
  !r.body.isEmpty && r.body.all safeTok &&
    (r.body.drop 1).all (fun t => !(t == implW)) && safeTok r.head

/-- The statement cores built by `to_string` for a run of rules, with the
1-based `enumerate` counter. -/
def coreList : Nat → List PrudensRule → List (List Char)
  | _, [] => []
  | i, r :: rs => stmtCore r ('R' :: natDigits i) :: coreList (i + 1) rs

/-- All rules active and all rule tokens robust: the hypotheses of the
knowledge-base round trip. -/
def allActiveSafe (kb : PrudensKnowledgeBase) : Bool :=
  kb.rules.all (fun r => r.active && safeRule r)

/-- No newline inside any body or head token of the knowledge base. -/
def noNlKB (kb : PrudensKnowledgeBase) : Bool :=
  kb.rules.all fun r =>
    r.body.all (fun t => t.all (fun c => !(c == '\n'))) &&
      r.head.all (fun c => !(c == '\n'))

/-- A usable verbatim rule-name: at least one non-whitespace character and no
colon. -/
def safeNameB (n : List Char) : Bool :=
  n.any (fun c => !(pyWS c)) && n.all (fun c => !(c == ':'))

/-- The exact condition under which the literal sign round trip holds: either
no dash at all, or exactly one dash and it is the leading character. -/
def signSafe (t : List Char) : Bool :=
  !(t.contains '-') ||
    ((t.head? == some '-') && !((t.drop 1).head? == some '-'))

/-- The token conditions exactly as claim C6/C7 state them: every body/head
token is non-empty and free of the delimiter substrings
`";"`, `", "`, `" :: "`, `" implies "` and newline. -/
def claimTokOk (r : PrudensRule) : Bool :=
  (r.body ++ [r.head]).all fun t =>
    !t.isEmpty && !(containsSub [';'] t) && !(containsSub commaSp t) &&
      !(containsSub sepSC t) && !(containsSub sepImpl t) &&
      !(containsSub ['\n'] t)

/-- The conditions of claim C6: all rules active, tokens as the claim demands. -/
def claimC6_ok (kb : PrudensKnowledgeBase) : Bool :=
  kb.rules.all fun r => r.active && claimTokOk r

/-- Modelled from the claim's words (for refutation of C4): strip one leading
`-` to obtain each body token's name, exclude the reserved names `"true"` and
`"empty"` regardless of sign, deduplicate, and sort naturally. -/
def specFullContextC4 (kb : PrudensKnowledgeBase) : List (List Char) :=
  List.insertionSort ctxLe
    ((kb.rules.flatMap (fun r => r.body)).foldl
      (fun acc t =>
        let nm := if t.head? = some '-' then t.tail else t
        if nm = trueTok || nm = emptyTok then acc
        else if acc.elem nm then acc else acc ++ [nm])
      [])

/-- Three-rule example knowledge base whose 2nd rule is inactive. -/
def kb3ex : PrudensKnowledgeBase :=
  ⟨[⟨[['a']], ['b'], [], true⟩, ⟨[['c']], ['d'], [], false⟩,
    ⟨[['e']], ['f'], [], true⟩]⟩

/-- One-rule example whose head token `" c"` starts with a space. -/
def kbC6ex : PrudensKnowledgeBase := ⟨[⟨[['a']], [' ', 'c'], [], true⟩]⟩

/-- One-rule all-active example with robust tokens, used as a round-trip
witness input. -/
def kbRT : PrudensKnowledgeBase := ⟨[⟨[['a'], ['-', 'b']], ['c'], [], true⟩]⟩

/-- Example pair for C10: two knowledge bases whose only rule differs in
`added_as` and `active` only. -/
def kbD1 : PrudensKnowledgeBase := ⟨[⟨[['x']], ['y'], [], true⟩]⟩

/-- Companion of `kbD1` with the rule marked inactive and a provenance tag. -/
def kbD2 : PrudensKnowledgeBase := ⟨[⟨[['x']], ['y'], strL "prov", false⟩]⟩

/-! Section: Splitting machinery

`NoMid sep p` says no occurrence of `sep` begins strictly inside `p` when `p`
is immediately followed by `sep`; it is the condition under which Python
`split` recovers the pieces of a `join`. -/

theorem isPrefixOfEq {l₁ l₂ : List Char} : l₁.isPrefixOf l₂ = true ↔ l₁ <+: l₂ :=
  List.isPrefixOf_iff_prefix

theorem prefixTotal {l₁ l₂ l₃ : List Char} (h₁ : l₁ <+: l₃) (h₂ : l₂ <+: l₃) :
    l₁ <+: l₂ ∨ l₂ <+: l₁ :=
  List.prefix_or_prefix_of_prefix h₁ h₂

theorem noMid_nil (sep : List Char) : NoMid sep [] := by
  intro q hq hne
  exact absurd (List.suffix_nil.mp hq) hne

theorem prefix_of_append_of_le {u a b : List Char} (h : u <+: a ++ b)
    (hlen : u.length ≤ a.length) : u <+: a := by
  rw [List.prefix_iff_eq_take] at h
  rw [List.take_append_of_le_length hlen] at h
  exact h ▸ List.take_prefix u.length a

theorem splitAuxF_fuel (sep : List Char) :
    ∀ f₁ f₂ s acc, s.length < f₁ → s.length < f₂ →
      splitAuxF sep f₁ s acc = splitAuxF sep f₂ s acc := by
  intro f₁
  induction f₁ with
  | zero =>
    intro f₂ s acc h₁ _
    exact absurd h₁ (Nat.not_lt_zero _)
  | succ f ih =>
    intro f₂ s acc h₁ h₂
    match s, f₂ with
    | [], 0 => rfl
    | [], g + 1 => rfl
    | c :: cs, 0 => exact absurd h₂ (Nat.not_lt_zero _)
    | c :: cs, g + 1 =>
      show (if sep.isPrefixOf (c :: cs) then
              acc.reverse :: splitAuxF sep f (cs.drop (sep.length - 1)) []
            else splitAuxF sep f cs (c :: acc)) =
           (if sep.isPrefixOf (c :: cs) then
              acc.reverse :: splitAuxF sep g (cs.drop (sep.length - 1)) []
            else splitAuxF sep g cs (c :: acc))
      by_cases hpre : sep.isPrefixOf (c :: cs)
      · rw [if_pos hpre, if_pos hpre]
        have hlen : (cs.drop (sep.length - 1)).length < f := by
          have := List.length_drop (sep.length - 1) cs
          simp only [List.length_cons] at h₁
          omega
        have hlen₂ : (cs.drop (sep.length - 1)).length < g := by
          have := List.length_drop (sep.length - 1) cs
          simp only [List.length_cons] at h₂
          omega
        rw [ih g _ _ hlen hlen₂]
      · rw [if_neg hpre, if_neg hpre]
        have hlen : cs.length < f := by simp only [List.length_cons] at h₁; omega
        have hlen₂ : cs.length < g := by simp only [List.length_cons] at h₂; omega
        rw [ih g _ _ hlen hlen₂]

theorem splitAuxF_chunk {sep : List Char} (hsep : sep ≠ []) :
    ∀ p, NoMid sep p → ∀ r acc fuel, (p ++ sep ++ r).length < fuel →
      splitAuxF sep fuel (p ++ sep ++ r) acc =
        (acc.reverse ++ p) :: splitAuxF sep (r.length + 1) r [] := by
  intro p
  induction p with
  | nil =>
    intro _ r acc fuel hfuel
    match sep, hsep with
    | c :: sep', _ =>
      match fuel with
      | 0 => exact absurd hfuel (Nat.not_lt_zero _)
      | f + 1 =>
        simp only [List.nil_append, List.cons_append]
        show (if (c :: sep').isPrefixOf (c :: (sep' ++ r)) then
                acc.reverse :: splitAuxF (c :: sep') f
                  ((sep' ++ r).drop ((c :: sep').length - 1)) []
              else splitAuxF (c :: sep') f (sep' ++ r) (c :: acc)) = _
        have hpre : (c :: sep').isPrefixOf (c :: (sep' ++ r)) = true := by
          rw [isPrefixOfEq]
          exact (List.cons_prefix_cons).mpr ⟨rfl, List.prefix_append sep' r⟩
        rw [if_pos hpre]
        have hdrop : (sep' ++ r).drop ((c :: sep').length - 1) = r := by
          simp only [List.length_cons, Nat.add_sub_cancel]
          exact List.drop_left sep' r
        rw [hdrop]
        have hr : r.length < f := by
          simp only [List.cons_append, List.length_cons, List.length_append] at hfuel
          omega
        rw [splitAuxF_fuel (c :: sep') f (r.length + 1) r [] hr (Nat.lt_succ_self _)]
        simp
  | cons c p' ih =>
    intro hnm r acc fuel hfuel
    match fuel with
    | 0 => exact absurd hfuel (Nat.not_lt_zero _)
    | f + 1 =>
      have hshape : (c :: p') ++ sep ++ r = c :: (p' ++ sep ++ r) := by simp
      rw [hshape]
      show (if sep.isPrefixOf (c :: (p' ++ sep ++ r)) then
              acc.reverse :: splitAuxF sep f
                ((p' ++ sep ++ r).drop (sep.length - 1)) []
            else splitAuxF sep f (p' ++ sep ++ r) (c :: acc)) = _
      have hnotpre : ¬ sep <+: c :: (p' ++ (sep ++ r)) := by
        intro hpre
        have hpre' : sep <+: ((c :: p') ++ sep) ++ r := by
          simpa [List.append_assoc] using hpre
        have hpre'' : sep <+: (c :: p') ++ sep :=
          prefix_of_append_of_le hpre' (by simp; omega)
        exact hnm (c :: p') (List.suffix_refl _) (by simp) hpre''
      rw [if_neg (by simpa using hnotpre)]
      have hnm' : NoMid sep p' := by
        intro q hq hne
        exact hnm q (hq.trans (List.suffix_cons c p')) hne
      have hlen : (p' ++ sep ++ r).length < f := by
        rw [hshape] at hfuel
        simp only [List.length_cons] at hfuel
        omega
      rw [ih hnm' r (c :: acc) f hlen]
      simp

theorem splitAuxF_last {sep : List Char} (_hsep : sep ≠ []) :
    ∀ p, NoMid sep p → ∀ acc fuel, p.length < fuel →
      splitAuxF sep fuel p acc = [acc.reverse ++ p] := by
  intro p
  induction p with
  | nil =>
    intro _ acc fuel hfuel
    match fuel with
    | 0 => exact absurd hfuel (Nat.not_lt_zero _)
    | f + 1 => simp [splitAuxF]
  | cons c p' ih =>
    intro hnm acc fuel hfuel
    match fuel with
    | 0 => exact absurd hfuel (Nat.not_lt_zero _)
    | f + 1 =>
      show (if sep.isPrefixOf (c :: p') then
              acc.reverse :: splitAuxF sep f (p'.drop (sep.length - 1)) []
            else splitAuxF sep f p' (c :: acc)) = _
      have hnotpre : sep.isPrefixOf (c :: p') = false := by
        rw [Bool.eq_false_iff]
        intro hpre
        rw [isPrefixOfEq] at hpre
        have : sep <+: (c :: p') ++ sep :=
          hpre.trans (List.prefix_append (c :: p') sep)
        exact hnm (c :: p') (List.suffix_refl _) (by simp) this
      rw [if_neg (by simp [hnotpre])]
      have hnm' : NoMid sep p' := by
        intro q hq hne
        exact hnm q (hq.trans (List.suffix_cons c p')) hne
      have hlen : p'.length < f := by
        simp only [List.length_cons] at hfuel
        omega
      rw [ih hnm' (c :: acc) f hlen]
      simp

/-- Python `split` is a left inverse of `join` whenever no separator occurrence
can begin strictly inside a piece. -/
theorem pySplit_joinSep {sep : List Char} (hsep : sep ≠ []) :
    ∀ parts, parts ≠ [] → (∀ p ∈ parts, NoMid sep p) →
      pySplit sep (joinSep sep parts) = parts := by
  intro parts
  induction parts with
  | nil => intro h; exact absurd rfl h
  | cons p ps ih =>
    intro _ hnm
    match ps with
    | [] =>
      show pySplit sep p = [p]
      unfold pySplit
      rw [splitAuxF_last hsep p (hnm p (by simp)) [] (p.length + 1) (Nat.lt_succ_self _)]
      simp
    | q :: qs =>
      show pySplit sep (p ++ sep ++ joinSep sep (q :: qs)) = p :: q :: qs
      unfold pySplit
      rw [splitAuxF_chunk hsep p (hnm p (by simp)) (joinSep sep (q :: qs)) []
        _ (Nat.lt_succ_self _)]
      have := ih (by simp) (fun x hx => hnm x (by simp [hx]))
      unfold pySplit at this
      rw [this]
      simp

/-- If the first separator character never occurs in `p`, no separator
occurrence can begin inside `p`. -/
theorem noMid_of_head_notMem {c : Char} {sep' p : List Char}
    (h : ∀ d ∈ p, d ≠ c) : NoMid (c :: sep') p := by
  intro q hq hne hpre
  match q, hne with
  | d :: q', _ =>
    rw [List.cons_append, List.cons_prefix_cons] at hpre
    exact h d (hq.subset (by simp)) hpre.1.symm

/-- If `:` never occurs in `p`, no occurrence of `" :: "` can begin inside
`p ++ " :: "`. -/
theorem noMid_sepSC {p : List Char} (h : ∀ d ∈ p, d ≠ ':') : NoMid sepSC p := by
  intro q hq hne hpre
  match q, hne with
  | [d], _ =>
    simp only [sepSC, List.cons_append, List.nil_append,
      List.cons_prefix_cons, List.prefix_refl, and_true] at hpre
    exact absurd hpre.2.1 (by decide)
  | d :: e :: q', _ =>
    simp only [sepSC, List.cons_append, List.cons_prefix_cons] at hpre
    exact h e (hq.subset (by simp)) hpre.2.1.symm

theorem suffix_append_cases {q a b : List Char} (h : q <:+ a ++ b) :
    q <:+ b ∨ ∃ a', a' <:+ a ∧ a' ≠ [] ∧ q = a' ++ b := by
  induction a with
  | nil => left; simpa using h
  | cons c a' ih =>
    rw [List.cons_append, List.suffix_cons_iff] at h
    rcases h with heq | hs
    · right
      exact ⟨c :: a', List.suffix_refl _, by simp, by simpa using heq⟩
    · rcases ih hs with h1 | ⟨a'', hsuf, hane, rfl⟩
      · left; exact h1
      · right; exact ⟨a'', hsuf.trans (List.suffix_cons c a'), hane, rfl⟩

/-- A space-free token other than the word `implies`, followed by text starting
with a space or a comma, never starts with `"implies "`. -/
theorem impliesNoEarlyMatch {u Z : List Char}
    (hu : ∀ c ∈ u, pyWS c = false)
    (hne : u ≠ implW)
    (hz : Z.head? = some ' ' ∨ Z.head? = some ',') :
    ¬ (implW ++ [' ']) <+: u ++ Z := by
  intro hpre
  rcases prefixTotal hpre (List.prefix_append u Z) with hwu | huw
  · have hsp : ' ' ∈ u := hwu.sublist.mem (by simp)
    exact absurd (hu ' ' hsp) (by decide)
  · have himpl : implW <+: implW ++ [' '] := List.prefix_append implW [' ']
    rcases prefixTotal huw himpl with huimpl | himplu
    · by_cases hlen : u.length = implW.length
      · have : u = implW := by
          rw [List.prefix_iff_eq_take, hlen, List.take_length] at huimpl
          exact huimpl
        exact hne this
      · have hlt : u.length < implW.length :=
          lt_of_le_of_ne huimpl.length_le hlen
        have hw' : implW ++ [' '] = u ++ (implW ++ [' ']).drop u.length := by
          conv_lhs => rw [← List.take_append_drop u.length (implW ++ [' '])]
          rw [List.prefix_iff_eq_take] at huw
          rw [← huw]
        rw [hw'] at hpre
        have hdz : (implW ++ [' ']).drop u.length <+: Z :=
          (List.prefix_append_right_inj u).mp hpre
        have hne' : (implW ++ [' ']).drop u.length ≠ [] := by
          intro h
          have := congrArg List.length h
          simp [implW] at this
          simp [implW] at hlt
          omega
        rcases hdz with ⟨t, rfl⟩
        have hhead : ((implW ++ [' ']).drop u.length ++ t).head? =
            ((implW ++ [' ']).drop u.length).head? :=
          List.head?_append_of_ne_nil _ hne'
        have hget : ((implW ++ [' ']).drop u.length).head? = (implW ++ [' '])[u.length]? :=
          List.head?_drop _ _
        have hgetl : (implW ++ [' '])[u.length]? = implW[u.length]? :=
          List.getElem?_append_left hlt
        have hlet : ∀ j, j < 7 → implW[j]? ≠ some ' ' ∧ implW[j]? ≠ some ',' := by decide
        have hj := hlet u.length (by simpa [implW] using hlt)
        rcases hz with h | h <;>
          rw [hhead, hget, hgetl] at h
        · exact hj.1 h
        · exact hj.2 h
    · have h8 : u.length ≤ (implW ++ [' ']).length := huw.length_le
      have h7 : implW.length ≤ u.length := himplu.length_le
      rw [List.prefix_iff_eq_take] at huw
      have : u.length = 7 ∨ u.length = 8 := by
        simp [implW] at h7 h8
        omega
      rcases this with h | h
      · rw [h] at huw
        have : u = implW := by rw [huw]; decide
        exact hne this
      · rw [h] at huw
        have : u = implW ++ [' '] := by rw [huw]; decide
        have hsp : ' ' ∈ u := by rw [this]; simp
        exact absurd (hu ' ' hsp) (by decide)

/-- Characters of a `joinSep` come from the separator or from the parts. -/
theorem mem_joinSep {sep : List Char} {ps : List (List Char)} {c : Char} :
    c ∈ joinSep sep ps → c ∈ sep ∨ ∃ p ∈ ps, c ∈ p := by
  induction ps with
  | nil => intro h; exact absurd h (List.not_mem_nil c)
  | cons p ps ih =>
    match ps with
    | [] =>
      intro h
      exact Or.inr ⟨p, by simp, h⟩
    | q :: qs =>
      intro h
      rcases List.mem_append.mp h with h' | h'
      · rcases List.mem_append.mp h' with h'' | h''
        · exact Or.inr ⟨p, by simp, h''⟩
        · exact Or.inl h''
      · rcases ih h' with h'' | ⟨x, hx, hcx⟩
        · exact Or.inl h''
        · exact Or.inr ⟨x, by simp [hx], hcx⟩

theorem map_joinSep {sep : List Char} {ps : List (List Char)} {f : Char → Char} :
    (joinSep sep ps).map f = joinSep (sep.map f) (ps.map (fun p => p.map f)) := by
  induction ps with
  | nil => rfl
  | cons p ps ih =>
    match ps with
    | [] => rfl
    | q :: qs =>
      show ((p ++ sep ++ joinSep sep (q :: qs)).map f) = _
      rw [List.map_append, List.map_append, ih]
      rfl

/-- No occurrence of `" implies "` begins strictly inside
`", ".join(tokens) ++ " implies "` when the tokens are free of spaces and
commas and no token after the first is the bare word `implies`. -/
theorem noMid_sepImpl_join {ts : List (List Char)} (hne : ts ≠ [])
    (hsafe : ∀ t ∈ ts, ∀ c ∈ t, pyWS c = false ∧ c ≠ ',')
    (himpl : ∀ t ∈ ts.tail, t ≠ implW) :
    NoMid sepImpl (joinSep commaSp ts) := by
  induction ts with
  | nil => exact absurd rfl hne
  | cons t ts' ih =>
    match ts' with
    | [] =>
      intro q hq hqne hpre
      match q, hqne with
      | d :: q', _ =>
        have hd : d ∈ t := hq.subset (by simp)
        rw [show sepImpl = ' ' :: ('i' :: ['m', 'p', 'l', 'i', 'e', 's', ' ']) from rfl,
          List.cons_append, List.cons_prefix_cons] at hpre
        have := (hsafe t (by simp) d hd).1
        rw [← hpre.1] at this
        exact absurd this (by decide)
    | u :: ts'' =>
      intro q hq hqne hpre
      have hq' : q <:+ t ++ (commaSp ++ joinSep commaSp (u :: ts'')) := by
        simpa [joinSep, List.append_assoc] using hq
      rcases suffix_append_cases hq' with hcase | ⟨a', hsufa, hane, rfl⟩
      · rcases suffix_append_cases hcase with hcase2 | ⟨c', hsufc, hcne, rfl⟩
        · refine ih (by simp)
            (fun x hx => hsafe x (by simp [List.mem_cons] at hx ⊢; tauto))
            (fun x hx => himpl x (by simp at hx ⊢; tauto)) q hcase2 hqne hpre
        · have hc' : c' = [',', ' '] ∨ c' = [' '] := by
            rcases List.suffix_cons_iff.mp hsufc with h | h
            · left; exact h
            · rcases List.suffix_cons_iff.mp h with h' | h'
              · right; exact h'
              · exact absurd (List.suffix_nil.mp h') hcne
          rcases hc' with rfl | rfl
          · rw [show sepImpl = ' ' :: ('i' :: ['m', 'p', 'l', 'i', 'e', 's', ' ']) from rfl]
              at hpre
            simp only [List.cons_append, List.nil_append] at hpre
            rw [List.cons_prefix_cons] at hpre
            exact absurd hpre.1 (by decide)
          · rw [show sepImpl = ' ' :: (implW ++ [' ']) from rfl] at hpre
            simp only [List.cons_append, List.nil_append] at hpre
            rw [List.cons_prefix_cons] at hpre
            have hpre' := hpre.2
            match ts'' with
            | [] =>
              have hJ : joinSep commaSp [u] = u := rfl
              rw [hJ] at hpre'
              refine impliesNoEarlyMatch (fun c hc => (hsafe u (by simp) c hc).1)
                (himpl u (by simp)) ?_ hpre'
              exact Or.inl rfl
            | v :: ts''' =>
              have hJ : joinSep commaSp (u :: v :: ts''') =
                  u ++ (commaSp ++ joinSep commaSp (v :: ts''')) := by
                simp [joinSep, List.append_assoc]
              rw [hJ, List.append_assoc] at hpre'
              exact impliesNoEarlyMatch (fun c hc => (hsafe u (by simp) c hc).1)
                (himpl u (by simp)) (Or.inr (by simp [commaSp])) hpre'
      · rw [show sepImpl = ' ' :: ('i' :: ['m', 'p', 'l', 'i', 'e', 's', ' ']) from rfl] at hpre
        match a', hane with
        | d :: a'', _ =>
          simp only [List.cons_append, List.nil_append] at hpre
          rw [List.cons_prefix_cons] at hpre
          have hd : d ∈ t := hsufa.subset (by simp)
          have := (hsafe t (by simp) d hd).1
          rw [← hpre.1] at this
          exact absurd this (by decide)

/-! Section: Character and token safety -/

theorem safeChar_spec {c : Char} (h : safeChar c = true) :
    pyWS c = false ∧ c ≠ ',' ∧ c ≠ ';' ∧ c ≠ ':' := by
  simp only [safeChar, Bool.and_eq_true, Bool.not_eq_true'] at h
  refine ⟨h.1.1.1, ?_, ?_, ?_⟩
  · simpa using h.1.1.2
  · simpa using h.1.2
  · simpa using h.2

theorem safeTok_spec {t : List Char} (h : safeTok t = true) :
    t ≠ [] ∧ ∀ c ∈ t, safeChar c = true := by
  simp only [safeTok, Bool.and_eq_true, Bool.not_eq_true', List.all_eq_true] at h
  exact ⟨by simpa [List.isEmpty_iff] using h.1, h.2⟩

theorem pyWS_false_ne {c : Char} (h : pyWS c = false) : c ≠ ' ' ∧ c ≠ '\n' := by
  constructor <;> (rintro rfl; exact absurd h (by decide))

theorem digit_safeChar {c : Char} (h1 : '0' ≤ c) (h2 : c ≤ '9') : safeChar c = true := by
  have hne : ∀ x : Char, ¬ '0' ≤ x ∨ ¬ x ≤ '9' → c ≠ x := by
    rintro x hx rfl
    rcases hx with hx | hx
    · exact hx h1
    · exact hx h2
  have hws : pyWS c = false := by
    simp only [pyWS, Bool.or_eq_false_iff, beq_eq_false_iff_ne]
    exact ⟨⟨⟨⟨⟨hne ' ' (by decide), hne '\t' (by decide)⟩, hne '\n' (by decide)⟩,
      hne '\r' (by decide)⟩, hne '\x0b' (by decide)⟩, hne '\x0c' (by decide)⟩
  simp only [safeChar, hws, Bool.not_false, Bool.true_and, Bool.and_eq_true,
    Bool.not_eq_true', beq_eq_false_iff_ne]
  exact ⟨⟨hne ',' (by decide), hne ';' (by decide)⟩, hne ':' (by decide)⟩

theorem digitCh_range : ∀ d, d < 10 → '0' ≤ digitCh d ∧ digitCh d ≤ '9' := by decide

theorem natDigitsAux_range :
    ∀ fuel n acc, (∀ c ∈ acc, '0' ≤ c ∧ c ≤ '9') →
      ∀ c ∈ natDigitsAux fuel n acc, '0' ≤ c ∧ c ≤ '9' := by
  intro fuel
  induction fuel with
  | zero => intro n acc hacc; exact hacc
  | succ f ih =>
    intro n acc hacc c hc
    simp only [natDigitsAux] at hc
    by_cases hn : n < 10
    · rw [if_pos hn] at hc
      rcases List.mem_cons.mp hc with rfl | hc'
      · exact digitCh_range n hn
      · exact hacc c hc'
    · rw [if_neg hn] at hc
      refine ih (n / 10) _ ?_ c hc
      intro x hx
      rcases List.mem_cons.mp hx with rfl | hx'
      · exact digitCh_range _ (Nat.mod_lt _ (by norm_num))
      · exact hacc x hx'

theorem natDigits_range {n : Nat} : ∀ c ∈ natDigits n, '0' ≤ c ∧ c ≤ '9' :=
  natDigitsAux_range (n + 1) n [] (by simp)

theorem natDigits_safe {n : Nat} : ∀ c ∈ natDigits n, safeChar c = true :=
  fun c hc => digit_safeChar (natDigits_range c hc).1 (natDigits_range c hc).2

/-! Section: Strip lemmas -/

theorem dropWhile_id_of_all {p : Char → Bool} {s : List Char}
    (h : ∀ c ∈ s, p c = false) : s.dropWhile p = s := by
  match s with
  | [] => rfl
  | c :: cs => simp [List.dropWhile_cons, h c (List.mem_cons_self c cs)]

theorem dropWhile_append_of_ex {p : Char → Bool} {a b : List Char}
    (h : ∃ x ∈ a, p x = false) : (a ++ b).dropWhile p = a.dropWhile p ++ b := by
  have hne : a.dropWhile p ≠ [] := by
    intro hnil
    rcases h with ⟨x, hx, hpx⟩
    have := (List.dropWhile_eq_nil_iff).mp hnil x hx
    rw [this] at hpx
    exact absurd hpx (by decide)
  rw [List.dropWhile_append]
  cases hd : a.dropWhile p with
  | nil => exact absurd hd hne
  | cons x xs => simp [hd]

theorem pyStrip_noWS {s : List Char} (h : ∀ c ∈ s, pyWS c = false) :
    pyStrip s = s := by
  unfold pyStrip
  rw [dropWhile_id_of_all h,
    dropWhile_id_of_all (fun c hc => h c (List.mem_reverse.mp hc)),
    List.reverse_reverse]

theorem pyStrip_noop_of {s : List Char} {c d : Char} (hh : s.head? = some c)
    (hc : pyWS c = false) (hl : s.getLast? = some d) (hd : pyWS d = false) :
    pyStrip s = s := by
  rcases List.head?_eq_some_iff.mp hh with ⟨s', rfl⟩
  rw [List.getLast?_eq_head?_reverse] at hl
  rcases List.head?_eq_some_iff.mp hl with ⟨w, hw⟩
  unfold pyStrip
  have h1 : (c :: s').dropWhile pyWS = c :: s' := by
    rw [List.dropWhile_cons, hc]; simp
  have h2 : (c :: s').reverse.dropWhile pyWS = (c :: s').reverse := by
    rw [hw, List.dropWhile_cons, hd]; simp
  rw [h1, h2, List.reverse_reverse]

theorem pyStrip_cons_space (u : List Char) : pyStrip (' ' :: u) = pyStrip u := by
  unfold pyStrip
  rw [List.dropWhile_cons, (by decide : pyWS ' ' = true)]
  simp

theorem pyRstripSemi_concat_semi (u : List Char) :
    pyRstripSemi (u ++ [';']) = pyRstripSemi u := by
  unfold pyRstripSemi
  rw [List.reverse_append]
  simp [List.dropWhile_cons]

theorem pyRstripSemi_noop {u : List Char} {d : Char} (hl : u.getLast? = some d)
    (hd : (d == ';') = false) : pyRstripSemi u = u := by
  rw [List.getLast?_eq_head?_reverse] at hl
  rcases List.head?_eq_some_iff.mp hl with ⟨w, hw⟩
  unfold pyRstripSemi
  rw [hw, List.dropWhile_cons, hd]
  simp [← hw]

theorem getLast?_append_right {a b : List Char} (hb : b ≠ []) :
    (a ++ b).getLast? = b.getLast? := by
  rw [List.getLast?_eq_head?_reverse, List.getLast?_eq_head?_reverse,
    List.reverse_append]
  exact List.head?_append_of_ne_nil _ (by simpa using hb)

theorem containsSub_iff {n h : List Char} : containsSub n h = true ↔ n <:+: h := by
  unfold containsSub
  rw [List.any_eq_true]
  constructor
  · rintro ⟨t, ht, hpre⟩
    exact List.infix_iff_prefix_suffix.mpr
      ⟨t, isPrefixOfEq.mp hpre, (List.mem_tails _ _).mp ht⟩
  · intro hinf
    rcases List.infix_iff_prefix_suffix.mp hinf with ⟨t, hpre, hsuf⟩
    exact ⟨t, (List.mem_tails _ _).mpr hsuf, isPrefixOfEq.mpr hpre⟩

/-! Section: Parsing a well-shaped rule statement -/

/-- No `:` occurs in `", ".join(body) ++ " implies " ++ head` for safe
tokens. -/
theorem seg_no_colon {body : List (List Char)} {hd : List Char}
    (hsafe : ∀ t ∈ body, safeTok t = true) (hhead : safeTok hd = true) :
    ∀ c ∈ joinSep commaSp body ++ sepImpl ++ hd, c ≠ ':' := by
  intro c hc
  rintro rfl
  rcases List.mem_append.mp hc with hc' | hc'
  · rcases List.mem_append.mp hc' with hc'' | hc''
    · rcases mem_joinSep hc'' with hsep | ⟨t, ht, hct⟩
      · revert hsep; decide
      · exact absurd rfl (safeChar_spec ((safeTok_spec (hsafe t ht)).2 _ hct)).2.2.2
    · revert hc''; decide
  · exact absurd rfl (safeChar_spec ((safeTok_spec hhead).2 _ hc')).2.2.2

/-- `PrudensRule.from_string` on any statement whose stripped,
semicolon-stripped form is `name ++ " :: " ++ ", ".join(body) ++ " implies "
++ head` with a colon-free name and safe tokens recovers exactly the body and
head (with the default `added_as`/`active`). -/
theorem from_string_of_shape (r : PrudensRule) (s N : List Char)
    (h1 : containsSub sepSC s = true) (h2 : containsSub sepImpl s = true)
    (h3 : pyRstripSemi (pyStrip s) =
      N ++ sepSC ++ (joinSep commaSp r.body ++ sepImpl ++ r.head))
    (hN : ∀ c ∈ N, c ≠ ':')
    (hbody : r.body ≠ [])
    (hsafe : ∀ t ∈ r.body, safeTok t = true)
    (himpl : ∀ t ∈ r.body.tail, t ≠ implW)
    (hhead : safeTok r.head = true) :
    PrudensRule.from_string s = .ok ⟨r.body, r.head, [], true⟩ := by
  have hws_head : ∀ c ∈ r.head, pyWS c = false :=
    fun c hc => (safeChar_spec ((safeTok_spec hhead).2 c hc)).1
  have hsplit1 :
      pySplit sepSC (N ++ sepSC ++ (joinSep commaSp r.body ++ sepImpl ++ r.head)) =
        [N, joinSep commaSp r.body ++ sepImpl ++ r.head] := by
    have hjoin : joinSep sepSC [N, joinSep commaSp r.body ++ sepImpl ++ r.head] =
        N ++ sepSC ++ (joinSep commaSp r.body ++ sepImpl ++ r.head) := rfl
    rw [← hjoin]
    refine pySplit_joinSep (by decide) _ (by simp) ?_
    intro p hp
    rcases List.mem_cons.mp hp with rfl | hp'
    · exact noMid_sepSC hN
    · rcases List.mem_cons.mp hp' with rfl | hp''
      · exact noMid_sepSC (seg_no_colon hsafe hhead)
      · exact absurd hp'' (List.not_mem_nil _)
  have hsplit2 : pySplit sepImpl (joinSep commaSp r.body ++ sepImpl ++ r.head) =
      [joinSep commaSp r.body, r.head] := by
    have hjoin : joinSep sepImpl [joinSep commaSp r.body, r.head] =
        joinSep commaSp r.body ++ sepImpl ++ r.head := rfl
    rw [← hjoin]
    refine pySplit_joinSep (by decide) _ (by simp) ?_
    intro p hp
    rcases List.mem_cons.mp hp with rfl | hp'
    · refine noMid_sepImpl_join hbody ?_ himpl
      intro t ht c hc
      have hs := (safeTok_spec (hsafe t ht)).2 c hc
      exact ⟨(safeChar_spec hs).1, (safeChar_spec hs).2.1⟩
    · rcases List.mem_cons.mp hp' with rfl | hp''
      · exact noMid_of_head_notMem
          (fun d hd => (pyWS_false_ne (hws_head d hd)).1)
      · exact absurd hp'' (List.not_mem_nil _)
  have hsplit3 : pySplit commaSp (joinSep commaSp r.body) = r.body := by
    refine pySplit_joinSep (by decide) _ hbody ?_
    intro t ht
    exact noMid_of_head_notMem
      (fun d hd => (safeChar_spec ((safeTok_spec (hsafe t ht)).2 d hd)).2.1)
  have hstrip_head : pyStrip r.head = r.head := pyStrip_noWS hws_head
  unfold PrudensRule.from_string
  rw [if_neg (by rw [h1, h2]; decide)]
  rw [h3]
  simp only [hsplit1, hsplit2, hsplit3, hstrip_head, List.getElem?_cons_succ,
    List.getElem?_cons_zero]

/-- The statement text produced by `PrudensRule.to_string`, regrouped around
the two delimiters. -/
theorem to_string_eq (r : PrudensRule) (nm : RuleName) :
    r.to_string nm = nm.render ++ sepSC ++
      (joinSep commaSp r.body ++ sepImpl ++ (r.head ++ [';'])) := by
  show joinSep [' ']
      [nm.render, [':', ':'], joinSep commaSp r.body, implW, r.head ++ [';']] = _
  simp [joinSep, sepSC, sepImpl, implW]

theorem to_string_eq_core (r : PrudensRule) (nm : RuleName) :
    r.to_string nm = stmtCore r nm.render ++ [';'] := by
  rw [to_string_eq, stmtCore]
  simp [List.append_assoc]

theorem containsSub_sepSC_core (r : PrudensRule) (N : List Char) {z : List Char} :
    containsSub sepSC (stmtCore r N ++ z) = true := by
  rw [containsSub_iff]
  exact ⟨N, (joinSep commaSp r.body ++ sepImpl ++ r.head) ++ z, by
    simp [stmtCore, List.append_assoc]⟩

theorem containsSub_sepImpl_core (r : PrudensRule) (N : List Char) {z : List Char} :
    containsSub sepImpl (stmtCore r N ++ z) = true := by
  rw [containsSub_iff]
  exact ⟨N ++ sepSC ++ joinSep commaSp r.body, r.head ++ z, by
    simp [stmtCore, List.append_assoc]⟩

/-- The last character of the statement core is the last character of the
(non-empty) head token. -/
theorem stmtCore_getLast {r : PrudensRule} {N L : List Char} {b : Char}
    (hhd : r.head = L ++ [b]) : (stmtCore r N).getLast? = some b := by
  rw [stmtCore, hhd]
  rw [show N ++ sepSC ++ (joinSep commaSp r.body ++ sepImpl ++ (L ++ [b])) =
    (N ++ sepSC ++ (joinSep commaSp r.body ++ sepImpl ++ L)) ++ [b] by
      simp [List.append_assoc]]
  exact List.getLast?_concat _

/-- Parsing the bare statement core (as the knowledge-base parser produces it
after splitting on `";"`) recovers the rule. -/
theorem from_string_core (r : PrudensRule) (N : List Char)
    (hbody : r.body ≠ []) (hsafe : ∀ t ∈ r.body, safeTok t = true)
    (himpl : ∀ t ∈ r.body.tail, t ≠ implW) (hhead : safeTok r.head = true)
    (hNc : ∀ c ∈ N, safeChar c = true) (hNne : N ≠ []) :
    PrudensRule.from_string (stmtCore r N) = .ok ⟨r.body, r.head, [], true⟩ := by
  rcases List.eq_nil_or_concat r.head with hnil | ⟨L, b, hLb⟩
  · exact absurd hnil (safeTok_spec hhead).1
  have hLb' : r.head = L ++ [b] := by simpa [List.concat_eq_append] using hLb
  have hb_mem : b ∈ r.head := by rw [hLb']; simp
  have hb_safe := safeChar_spec ((safeTok_spec hhead).2 b hb_mem)
  match N, hNne with
  | c0 :: N', _ =>
    have hc0 := safeChar_spec (hNc c0 (by simp))
    have hlast : (stmtCore r (c0 :: N')).getLast? = some b := stmtCore_getLast hLb'
    have hws_b : pyWS b = false :=
      (safeChar_spec ((safeTok_spec hhead).2 b hb_mem)).1
    have hhd : (stmtCore r (c0 :: N')).head? = some c0 := by
      simp [stmtCore]
    have hstrip : pyStrip (stmtCore r (c0 :: N')) = stmtCore r (c0 :: N') :=
      pyStrip_noop_of hhd hc0.1 hlast hws_b
    have hrstrip : pyRstripSemi (stmtCore r (c0 :: N')) = stmtCore r (c0 :: N') :=
      pyRstripSemi_noop hlast (beq_eq_false_iff_ne.mpr hb_safe.2.2.1)
    refine from_string_of_shape r _ (c0 :: N') ?_ ?_ ?_ ?_ hbody hsafe himpl hhead
    · simpa using containsSub_sepSC_core r (c0 :: N') (z := [])
    · simpa using containsSub_sepImpl_core r (c0 :: N') (z := [])
    · rw [hstrip, hrstrip, stmtCore]
    · exact fun c hc => (safeChar_spec (hNc c hc)).2.2.2

theorem rstripWS_noop {u : List Char} {d : Char} (hl : u.getLast? = some d)
    (hd : pyWS d = false) : (u.reverse.dropWhile pyWS).reverse = u := by
  rw [List.getLast?_eq_head?_reverse] at hl
  rcases List.head?_eq_some_iff.mp hl with ⟨w, hw⟩
  rw [hw, List.dropWhile_cons, hd]
  simp [← hw]

/-- Parsing the full rendered statement `r.to_string nm` recovers the rule,
for any rule-name whose rendered text has a non-whitespace character and no
colon. -/
theorem rule_round_trip (r : PrudensRule) (nm : RuleName)
    (hbody : r.body ≠ []) (hsafe : ∀ t ∈ r.body, safeTok t = true)
    (himpl : ∀ t ∈ r.body.tail, t ≠ implW) (hhead : safeTok r.head = true)
    (hname_ws : ∃ c ∈ nm.render, pyWS c = false)
    (hname_colon : ∀ c ∈ nm.render, c ≠ ':') :
    PrudensRule.from_string (r.to_string nm) = .ok ⟨r.body, r.head, [], true⟩ := by
  rcases List.eq_nil_or_concat r.head with hnil | ⟨L, b, hLb⟩
  · exact absurd hnil (safeTok_spec hhead).1
  have hLb' : r.head = L ++ [b] := by simpa [List.concat_eq_append] using hLb
  have hb_safe := safeChar_spec ((safeTok_spec hhead).2 b (by rw [hLb']; simp))
  have hshape : stmtCore r nm.render ++ [';'] =
      nm.render ++ (sepSC ++ (joinSep commaSp r.body ++ sepImpl ++ r.head) ++ [';']) := by
    simp [stmtCore, List.append_assoc]
  have hstrip : pyStrip (stmtCore r nm.render ++ [';']) =
      stmtCore r (nm.render.dropWhile pyWS) ++ [';'] := by
    unfold pyStrip
    rw [hshape, dropWhile_append_of_ex hname_ws]
    have hfix : nm.render.dropWhile pyWS ++
        (sepSC ++ (joinSep commaSp r.body ++ sepImpl ++ r.head) ++ [';']) =
        stmtCore r (nm.render.dropWhile pyWS) ++ [';'] := by
      simp [stmtCore, List.append_assoc]
    rw [hfix]
    exact rstripWS_noop (List.getLast?_concat _) (by decide)
  have hrstrip : pyRstripSemi (stmtCore r (nm.render.dropWhile pyWS) ++ [';']) =
      stmtCore r (nm.render.dropWhile pyWS) := by
    rw [pyRstripSemi_concat_semi]
    exact pyRstripSemi_noop (stmtCore_getLast hLb')
      (beq_eq_false_iff_ne.mpr hb_safe.2.2.1)
  rw [to_string_eq_core]
  refine from_string_of_shape r _ (nm.render.dropWhile pyWS)
    (containsSub_sepSC_core r nm.render) (containsSub_sepImpl_core r nm.render)
    ?_ ?_ hbody hsafe himpl hhead
  · rw [hstrip, hrstrip, stmtCore]
  · exact fun c hc => hname_colon c ((List.dropWhile_suffix pyWS).subset hc)

/-! Section: Knowledge-base round trip -/

theorem safeRule_spec {r : PrudensRule} (h : safeRule r = true) :
    r.body ≠ [] ∧ (∀ t ∈ r.body, safeTok t = true) ∧
      (∀ t ∈ r.body.tail, t ≠ implW) ∧ safeTok r.head = true := by
  simp only [safeRule, Bool.and_eq_true, List.all_eq_true] at h
  refine ⟨by simpa [List.isEmpty_iff] using h.1.1.1, h.1.1.2, ?_, h.2⟩
  intro t ht
  have := h.1.2 t (by rwa [List.drop_one])
  simpa using this

theorem safeChar_semi_nl {c : Char} (h : safeChar c = true) : c ≠ ';' ∧ c ≠ '\n' :=
  ⟨(safeChar_spec h).2.2.1, (pyWS_false_ne (safeChar_spec h).1).2⟩

theorem activeStatements_eq : ∀ (rs : List PrudensRule) (i : Nat),
    (∀ r ∈ rs, r.active = true) →
    activeStatements i rs = (coreList i rs).map (fun u => u ++ [';']) := by
  intro rs
  induction rs with
  | nil => intro i _; rfl
  | cons r rs ih =>
    intro i hact
    show (if r.active then r.to_string (.int i) :: activeStatements (i + 1) rs
          else activeStatements (i + 1) rs) = _
    rw [if_pos (hact r (by simp))]
    rw [ih (i + 1) (fun x hx => hact x (by simp [hx]))]
    rw [show r.to_string (.int i) = stmtCore r ('R' :: natDigits i) ++ [';'] from
      to_string_eq_core r (.int i)]
    rfl

theorem coreList_forall {P : List Char → Prop}
    (hP : ∀ (r : PrudensRule) (j : Nat), P (stmtCore r ('R' :: natDigits j))) :
    ∀ rs i, ∀ u ∈ coreList i rs, P u := by
  intro rs
  induction rs with
  | nil => intro i u hu; exact absurd hu (List.not_mem_nil u)
  | cons r rs ih =>
    intro i u hu
    rcases List.mem_cons.mp hu with rfl | hu'
    · exact hP r i
    · exact ih (i + 1) u hu'

theorem coreList_mem_rule : ∀ (rs : List PrudensRule) i (u : List Char),
    u ∈ coreList i rs → ∃ r ∈ rs, ∃ j, u = stmtCore r ('R' :: natDigits j) := by
  intro rs
  induction rs with
  | nil => intro i u hu; exact absurd hu (List.not_mem_nil u)
  | cons r rs ih =>
    intro i u hu
    rcases List.mem_cons.mp hu with rfl | hu'
    · exact ⟨r, by simp, i, rfl⟩
    · rcases ih (i + 1) u hu' with ⟨r', hr', j, hj⟩
      exact ⟨r', by simp [hr'], j, hj⟩

theorem stmtCore_head {r : PrudensRule} {c0 : Char} {N' : List Char} :
    (stmtCore r (c0 :: N')).head? = some c0 := by
  simp [stmtCore]

theorem stmtCore_ne_nil {r : PrudensRule} {c0 : Char} {N' : List Char} :
    stmtCore r (c0 :: N') ≠ [] := by
  simp [stmtCore]

theorem pyStrip_stmtCore {r : PrudensRule} {c0 : Char} {N' : List Char}
    (hc0ws : pyWS c0 = false) (hhead : safeTok r.head = true) :
    pyStrip (stmtCore r (c0 :: N')) = stmtCore r (c0 :: N') := by
  rcases List.eq_nil_or_concat r.head with hnil | ⟨L, b, hLb⟩
  · exact absurd hnil (safeTok_spec hhead).1
  have hLb' : r.head = L ++ [b] := by simpa [List.concat_eq_append] using hLb
  exact pyStrip_noop_of stmtCore_head hc0ws (stmtCore_getLast hLb')
    (safeChar_spec ((safeTok_spec hhead).2 b (by rw [hLb']; simp))).1

theorem natDigits_semi_nl {i : Nat} : ∀ c ∈ ('R' :: natDigits i), c ≠ ';' ∧ c ≠ '\n' := by
  intro c hc
  rcases List.mem_cons.mp hc with rfl | hc'
  · exact ⟨by decide, by decide⟩
  · exact safeChar_semi_nl (natDigits_safe c hc')

theorem sepSC_semi_nl : ∀ c ∈ sepSC, c ≠ ';' ∧ c ≠ '\n' := by decide

theorem sepImpl_semi_nl : ∀ c ∈ sepImpl, c ≠ ';' ∧ c ≠ '\n' := by decide

theorem commaSp_semi_nl : ∀ c ∈ commaSp, c ≠ ';' ∧ c ≠ '\n' := by decide

/-- No `;` and no newline anywhere in a statement core with safe tokens. -/
theorem stmtCore_chars {r : PrudensRule} {N : List Char}
    (hN : ∀ c ∈ N, c ≠ ';' ∧ c ≠ '\n')
    (hsafe : ∀ t ∈ r.body, safeTok t = true) (hhead : safeTok r.head = true) :
    ∀ c ∈ stmtCore r N, c ≠ ';' ∧ c ≠ '\n' := by
  intro c hc
  rw [stmtCore] at hc
  rcases List.mem_append.mp hc with hc' | hc'
  · rcases List.mem_append.mp hc' with hc'' | hc''
    · exact hN c hc''
    · exact sepSC_semi_nl c hc''
  · rcases List.mem_append.mp hc' with hc'' | hc''
    · rcases List.mem_append.mp hc'' with h3 | h3
      · rcases mem_joinSep h3 with h4 | ⟨t, ht, hct⟩
        · exact commaSp_semi_nl c h4
        · exact safeChar_semi_nl ((safeTok_spec (hsafe t ht)).2 c hct)
      · exact sepImpl_semi_nl c h3
    · exact safeChar_semi_nl ((safeTok_spec hhead).2 c hc'')

theorem joinSep_map_semi_ne_nil (sep : List Char) (c : List Char)
    (cs : List (List Char)) :
    joinSep sep ((c :: cs).map (fun u => u ++ [';'])) ≠ [] := by
  intro h
  match cs with
  | [] =>
    have h' : c ++ [';'] = [] := h
    simp at h'
  | d :: cs' =>
    have h' : (c ++ [';']) ++ sep ++
        joinSep sep ((d :: cs').map (fun u => u ++ [';'])) = [] := h
    simp at h'

theorem joinSep_map_semi_getLast (sep : List Char) :
    ∀ (cs : List (List Char)) (c : List Char),
      (joinSep sep ((c :: cs).map (fun u => u ++ [';']))).getLast? = some ';' := by
  intro cs
  induction cs with
  | nil => intro c; exact List.getLast?_concat c
  | cons d cs' ih =>
    intro c
    show ((c ++ [';']) ++ sep ++
      joinSep sep ((d :: cs').map (fun u => u ++ [';']))).getLast? = some ';'
    rw [List.append_assoc,
      getLast?_append_right (b := sep ++ joinSep sep ((d :: cs').map (fun u => u ++ [';'])))
        (fun hh => joinSep_map_semi_ne_nil sep d cs' (List.append_eq_nil.mp hh).2),
      getLast?_append_right (joinSep_map_semi_ne_nil sep d cs')]
    exact ih d

/-- Regrouping: a space-joined list of semicolon-terminated statements is a
semicolon-joined list of the first core, the space-prefixed later cores, and a
final empty piece. -/
theorem joinSpace_semi :
    ∀ (cs : List (List Char)) (c : List Char),
      joinSep [' '] ((c :: cs).map (fun u => u ++ [';'])) =
        joinSep [';'] ((c :: cs.map (fun u => ' ' :: u)) ++ [[]]) := by
  intro cs
  induction cs with
  | nil =>
    intro c
    show c ++ [';'] = c ++ [';'] ++ []
    simp
  | cons d cs' ih =>
    intro c
    show (c ++ [';']) ++ [' '] ++
        joinSep [' '] ((d :: cs').map (fun u => u ++ [';'])) =
      joinSep [';'] ((c :: (' ' :: d) :: cs'.map (fun u => ' ' :: u)) ++ [[]])
    rw [ih d]
    obtain ⟨x, xs, hcs⟩ :
        ∃ x xs, cs'.map (fun u => ' ' :: u) ++ [[]] = x :: xs := by
      cases hX : cs'.map (fun u => ' ' :: u) with
      | nil => exact ⟨[], [], rfl⟩
      | cons y ys => exact ⟨y, ys ++ [[]], List.cons_append y ys [[]]⟩
    have h1 : (d :: cs'.map (fun u => ' ' :: u)) ++ [[]] = d :: x :: xs := by
      rw [List.cons_append, hcs]
    have h2 : (c :: (' ' :: d) :: cs'.map (fun u => ' ' :: u)) ++ [[]] =
        c :: (' ' :: d) :: x :: xs := by
      rw [List.cons_append, List.cons_append, hcs]
    rw [h1, h2]
    show (c ++ [';']) ++ [' '] ++ (d ++ [';'] ++ joinSep [';'] (x :: xs)) =
      c ++ [';'] ++ ((' ' :: d) ++ [';'] ++ joinSep [';'] (x :: xs))
    simp

theorem mapNl_id {u : List Char} (h : ∀ c ∈ u, c ≠ '\n') :
    u.map (fun c => if c = '\n' then ' ' else c) = u := by
  have h' : ∀ c ∈ u, (fun c => if c = '\n' then ' ' else c) c = id c :=
    fun c hc => if_neg (h c hc)
  rw [List.map_congr_left h', List.map_id]

theorem dropWhile_append_all {p : Char → Bool} {a b : List Char}
    (h : ∀ x ∈ a, p x = true) : (a ++ b).dropWhile p = b.dropWhile p := by
  rw [List.dropWhile_append, List.dropWhile_eq_nil_iff.mpr h]
  simp

theorem parseRuleList_cores :
    ∀ (rs : List PrudensRule) (i : Nat), (∀ r ∈ rs, safeRule r = true) →
      parseRuleList (coreList i rs) =
        .ok (rs.map (fun r => ⟨r.body, r.head, [], true⟩)) := by
  intro rs
  induction rs with
  | nil => intro i _; rfl
  | cons r rs ih =>
    intro i hsafe
    have hr := safeRule_spec (hsafe r (by simp))
    have hparse : PrudensRule.from_string (stmtCore r ('R' :: natDigits i)) =
        .ok ⟨r.body, r.head, [], true⟩ :=
      from_string_core r _ hr.1 hr.2.1 hr.2.2.1 hr.2.2.2
        (fun c hc => by
          rcases List.mem_cons.mp hc with rfl | hc'
          · decide
          · exact natDigits_safe c hc')
        (by simp)
    show parseRuleList (stmtCore r ('R' :: natDigits i) :: coreList (i + 1) rs) = _
    unfold parseRuleList
    rw [hparse, ih (i + 1) (fun x hx => hsafe x (by simp [hx]))]
    rfl

/-- Parsing the rendered block text of an all-active knowledge base with
robust tokens recovers every rule body and head exactly (with the parser's
default `added_as`/`active`). -/
theorem kb_round_trip (kb : PrudensKnowledgeBase) (h : allActiveSafe kb = true) :
    PrudensKnowledgeBase.from_string (kb.to_string ['\n']) =
      .ok ⟨kb.rules.map (fun r => ⟨r.body, r.head, [], true⟩)⟩ := by
  obtain ⟨rules⟩ := kb
  simp only [allActiveSafe, List.all_eq_true, Bool.and_eq_true] at h
  have hact : ∀ r ∈ rules, r.active = true := fun r hr => (h r hr).1
  have hsafe : ∀ r ∈ rules, safeRule r = true := fun r hr => (h r hr).2
  have hts : PrudensKnowledgeBase.to_string ⟨rules⟩ ['\n'] =
      joinSep ['\n'] (kbMarker :: (coreList 1 rules).map (fun u => u ++ [';'])) := by
    show joinSep ['\n'] (kbMarker :: activeStatements 1 rules) = _
    rw [activeStatements_eq rules 1 hact]
  rw [hts]
  match rules, hact, hsafe with
  | [], _, _ => decide
  | r0 :: rest, hact, hsafe =>
    have hsafe0 := safeRule_spec (hsafe r0 (by simp))
    have hcl : coreList 1 (r0 :: rest) =
        stmtCore r0 ('R' :: natDigits 1) :: coreList 2 rest := rfl
    rw [hcl]
    have hcore_chars :
        ∀ u ∈ stmtCore r0 ('R' :: natDigits 1) :: coreList 2 rest,
          ∀ c ∈ u, c ≠ ';' ∧ c ≠ '\n' := by
      intro u hu
      rcases List.mem_cons.mp hu with rfl | hu'
      · exact stmtCore_chars natDigits_semi_nl hsafe0.2.1 hsafe0.2.2.2
      · rcases coreList_mem_rule rest 2 u hu' with ⟨r', hr', j, rfl⟩
        have hs' := safeRule_spec (hsafe r' (by simp [hr']))
        exact stmtCore_chars natDigits_semi_nl hs'.2.1 hs'.2.2.2
    have hS : joinSep ['\n'] (kbMarker ::
        ((stmtCore r0 ('R' :: natDigits 1) :: coreList 2 rest).map
          (fun u => u ++ [';']))) =
        kbMarker ++ ['\n'] ++ joinSep ['\n']
          ((stmtCore r0 ('R' :: natDigits 1) :: coreList 2 rest).map
            (fun u => u ++ [';'])) := rfl
    rw [hS]
    have hJne : joinSep ['\n'] ((stmtCore r0 ('R' :: natDigits 1) ::
        coreList 2 rest).map (fun u => u ++ [';'])) ≠ [] :=
      joinSep_map_semi_ne_nil _ _ _
    have hheadS : (kbMarker ++ ['\n'] ++ joinSep ['\n']
        ((stmtCore r0 ('R' :: natDigits 1) :: coreList 2 rest).map
          (fun u => u ++ [';']))).head? = some '@' := by
      rw [List.append_assoc, List.head?_append_of_ne_nil kbMarker (by decide)]
      rfl
    have hlastS : (kbMarker ++ ['\n'] ++ joinSep ['\n']
        ((stmtCore r0 ('R' :: natDigits 1) :: coreList 2 rest).map
          (fun u => u ++ [';']))).getLast? = some ';' := by
      rw [List.append_assoc,
        getLast?_append_right (fun hh => hJne (List.append_eq_nil.mp hh).2),
        getLast?_append_right hJne]
      exact joinSep_map_semi_getLast ['\n'] (coreList 2 rest)
        (stmtCore r0 ('R' :: natDigits 1))
    have hstripS : pyStrip (kbMarker ++ ['\n'] ++ joinSep ['\n']
        ((stmtCore r0 ('R' :: natDigits 1) :: coreList 2 rest).map
          (fun u => u ++ [';']))) =
        kbMarker ++ ['\n'] ++ joinSep ['\n']
          ((stmtCore r0 ('R' :: natDigits 1) :: coreList 2 rest).map
            (fun u => u ++ [';'])) :=
      pyStrip_noop_of hheadS (by decide) hlastS (by decide)
    have hassert : kbMarker.isPrefixOf (pyStrip (kbMarker ++ ['\n'] ++
        joinSep ['\n'] ((stmtCore r0 ('R' :: natDigits 1) :: coreList 2 rest).map
          (fun u => u ++ [';'])))) = true := by
      rw [hstripS, isPrefixOfEq, List.append_assoc]
      exact List.prefix_append kbMarker _
    have hreplace : pyReplaceNlSpace (kbMarker ++ ['\n'] ++ joinSep ['\n']
        ((stmtCore r0 ('R' :: natDigits 1) :: coreList 2 rest).map
          (fun u => u ++ [';']))) =
        kbMarker ++ ([' '] ++ joinSep [' ']
          ((stmtCore r0 ('R' :: natDigits 1) :: coreList 2 rest).map
            (fun u => u ++ [';']))) := by
      unfold pyReplaceNlSpace
      rw [List.map_append, List.map_append]
      have h1 : kbMarker.map (fun c => if c = '\n' then ' ' else c) = kbMarker := by
        decide
      have h2 : (['\n'] : List Char).map (fun c => if c = '\n' then ' ' else c) =
          [' '] := by decide
      have h3 : (joinSep ['\n'] ((stmtCore r0 ('R' :: natDigits 1) ::
          coreList 2 rest).map (fun u => u ++ [';']))).map
            (fun c => if c = '\n' then ' ' else c) =
          joinSep [' '] ((stmtCore r0 ('R' :: natDigits 1) ::
            coreList 2 rest).map (fun u => u ++ [';'])) := by
        rw [map_joinSep, h2]
        congr 1
        rw [List.map_map]
        apply List.map_congr_left
        intro u hu
        show ((u ++ [';']).map fun c => if c = '\n' then ' ' else c) = u ++ [';']
        rw [List.map_append, mapNl_id (fun c hc => (hcore_chars u hu c hc).2)]
        rfl
      rw [h1, h2, h3, List.append_assoc]
    have hlstrip : pyLstripAny kbMarker (kbMarker ++ ([' '] ++ joinSep [' ']
        ((stmtCore r0 ('R' :: natDigits 1) :: coreList 2 rest).map
          (fun u => u ++ [';'])))) =
        ' ' :: joinSep [' '] ((stmtCore r0 ('R' :: natDigits 1) ::
          coreList 2 rest).map (fun u => u ++ [';'])) := by
      unfold pyLstripAny
      rw [dropWhile_append_all (by decide), List.singleton_append,
        List.dropWhile_cons, if_neg (by decide)]
    have hstripJ : pyStrip (' ' :: joinSep [' ']
        ((stmtCore r0 ('R' :: natDigits 1) :: coreList 2 rest).map
          (fun u => u ++ [';']))) =
        joinSep [' '] ((stmtCore r0 ('R' :: natDigits 1) ::
          coreList 2 rest).map (fun u => u ++ [';'])) := by
      rw [pyStrip_cons_space]
      obtain ⟨Z, hZ⟩ : ∃ Z, joinSep [' ']
          ((stmtCore r0 ('R' :: natDigits 1) :: coreList 2 rest).map
            (fun u => u ++ [';'])) =
          (stmtCore r0 ('R' :: natDigits 1) ++ [';']) ++ Z := by
        match coreList 2 rest with
        | [] => exact ⟨[], by simp [joinSep]⟩
        | d :: cs' =>
          exact ⟨[' '] ++ joinSep [' '] ((d :: cs').map (fun u => u ++ [';'])),
            by simp [joinSep, List.append_assoc]⟩
      refine pyStrip_noop_of (c := 'R') (d := ';') ?_ (by decide) ?_ (by decide)
      · rw [hZ, List.head?_append_of_ne_nil _ (by simp),
          List.head?_append_of_ne_nil _ stmtCore_ne_nil]
        exact stmtCore_head
      · exact joinSep_map_semi_getLast [' '] (coreList 2 rest)
          (stmtCore r0 ('R' :: natDigits 1))
    have hsplitJ : pySplit [';'] (joinSep [' ']
        ((stmtCore r0 ('R' :: natDigits 1) :: coreList 2 rest).map
          (fun u => u ++ [';']))) =
        (stmtCore r0 ('R' :: natDigits 1) ::
          (coreList 2 rest).map (fun u => ' ' :: u)) ++ [[]] := by
      rw [joinSpace_semi]
      refine pySplit_joinSep (by decide) _ (by simp) ?_
      intro p hp
      rcases List.mem_append.mp hp with hp' | hp'
      · rcases List.mem_cons.mp hp' with rfl | hp''
        · exact noMid_of_head_notMem
            (fun d hd => (hcore_chars _ (by simp) d hd).1)
        · rcases List.mem_map.mp hp'' with ⟨u, hu, rfl⟩
          refine noMid_of_head_notMem ?_
          intro d hd
          rcases List.mem_cons.mp hd with rfl | hd'
          · decide
          · exact (hcore_chars u (by simp [hu]) d hd').1
      · have hpnil : p = [] := by simpa using hp'
        rw [hpnil]
        exact noMid_nil [';']
    have hfilter : ((stmtCore r0 ('R' :: natDigits 1) ::
        (coreList 2 rest).map (fun u => ' ' :: u)) ++ [[]]).filter
          (fun u => !u.isEmpty) =
        stmtCore r0 ('R' :: natDigits 1) ::
          (coreList 2 rest).map (fun u => ' ' :: u) := by
      rw [List.filter_append]
      have h1 : ([([] : List Char)]).filter (fun u => !u.isEmpty) = [] := rfl
      rw [h1, List.append_nil]
      rw [List.filter_eq_self.mpr]
      intro x hx
      rcases List.mem_cons.mp hx with rfl | hx'
      · have hne : stmtCore r0 ('R' :: natDigits 1) ≠ [] := stmtCore_ne_nil
        simpa [List.isEmpty_iff] using hne
      · rcases List.mem_map.mp hx' with ⟨u, hu, rfl⟩
        rfl
    have hmapStrip : (stmtCore r0 ('R' :: natDigits 1) ::
        (coreList 2 rest).map (fun u => ' ' :: u)).map pyStrip =
        stmtCore r0 ('R' :: natDigits 1) :: coreList 2 rest := by
      show pyStrip (stmtCore r0 ('R' :: natDigits 1)) ::
        ((coreList 2 rest).map (fun u => ' ' :: u)).map pyStrip = _
      rw [pyStrip_stmtCore (by decide) hsafe0.2.2.2]
      congr 1
      rw [List.map_map]
      have hid : ∀ u ∈ coreList 2 rest, (pyStrip ∘ (fun u => ' ' :: u)) u = id u := by
        intro u hu
        show pyStrip (' ' :: u) = u
        rcases coreList_mem_rule rest 2 u hu with ⟨r', hr', j, rfl⟩
        rw [pyStrip_cons_space]
        exact pyStrip_stmtCore (by decide)
          (safeRule_spec (hsafe r' (by simp [hr']))).2.2.2
      rw [List.map_congr_left hid, List.map_id]
    have hparse : parseRuleList (stmtCore r0 ('R' :: natDigits 1) ::
        coreList 2 rest) =
        .ok ((r0 :: rest).map (fun r => ⟨r.body, r.head, [], true⟩)) :=
      parseRuleList_cores (r0 :: rest) 1 hsafe
    unfold PrudensKnowledgeBase.from_string
    rw [if_neg (by rw [hassert]; decide)]
    simp only [hstripS, hreplace, hlstrip, hstripJ, hsplitJ, hfilter, hmapStrip,
      hparse]

/-! Section: Equality lemmas -/

/-- `PrudensRule.__eq__` as a logical statement: equal heads and equal body
token sets (membership in either body is equivalent). -/
theorem ruleEqb_iff {r₁ r₂ : PrudensRule} :
    ruleEqb r₁ r₂ = true ↔
      (∀ t, t ∈ r₁.body ↔ t ∈ r₂.body) ∧ r₁.head = r₂.head := by
  unfold ruleEqb
  simp only [Bool.and_eq_true, List.all_eq_true, beq_iff_eq]
  constructor
  · rintro ⟨⟨h1, h2⟩, h3⟩
    refine ⟨fun t => ⟨fun ht => ?_, fun ht => ?_⟩, h3⟩
    · have := h1 t ht
      rwa [List.elem_eq_mem, decide_eq_true_eq] at this
    · have := h2 t ht
      rwa [List.elem_eq_mem, decide_eq_true_eq] at this
  · rintro ⟨h1, h3⟩
    refine ⟨⟨fun t ht => ?_, fun t ht => ?_⟩, h3⟩
    · rw [List.elem_eq_mem, decide_eq_true_eq]
      exact (h1 t).mp ht
    · rw [List.elem_eq_mem, decide_eq_true_eq]
      exact (h1 t).mpr ht

theorem ruleEqb_fields (b : List (List Char)) (hd a₁ a₂ : List Char)
    (c₁ c₂ : Bool) : ruleEqb ⟨b, hd, a₁, c₁⟩ ⟨b, hd, a₂, c₂⟩ = true :=
  ruleEqb_iff.mpr ⟨fun _ => Iff.rfl, rfl⟩

theorem zip_parsed_ruleEqb {p : PrudensRule × PrudensRule} :
    ∀ rules : List PrudensRule,
      p ∈ ((rules.map (fun r => ⟨r.body, r.head, [], true⟩)).zip rules) →
      ruleEqb p.1 p.2 = true := by
  intro rules
  induction rules with
  | nil => intro hp; simp at hp
  | cons r rs ih =>
    intro hp
    rw [List.map_cons, List.zip_cons_cons] at hp
    rcases List.mem_cons.mp hp with rfl | hp'
    · exact ruleEqb_fields r.body r.head [] r.added_as true r.active
    · exact ih hp'

/-- Parsing yields a knowledge base equal (under `__eq__`) to the original:
the parsed rules differ only in `added_as`/`active`, which equality ignores. -/
theorem kb_parsed_eq (rules : List PrudensRule) :
    kbEqb ⟨rules.map (fun r => ⟨r.body, r.head, [], true⟩)⟩ ⟨rules⟩ = true := by
  unfold kbEqb
  refine (Bool.and_eq_true _ _).mpr ⟨?_, ?_⟩
  · simp
  · rw [List.all_eq_true]
    intro p hp
    exact zip_parsed_ruleEqb rules hp

/-! Section: Full-context lemmas -/

theorem ctxAdd_mem {acc : List (List Char)} {t s : List Char} :
    s ∈ ctxAdd acc t ↔
      s ∈ acc ∨ ((t ≠ trueTok ∧ t ≠ emptyTok) ∧ s = stripDashes t) := by
  unfold ctxAdd
  by_cases h1 : t = trueTok ∨ t = emptyTok
  · rw [if_pos (by simpa using h1)]
    constructor
    · exact Or.inl
    · rintro (hs | ⟨⟨ha, hb⟩, _⟩)
      · exact hs
      · rcases h1 with h1 | h1
        · exact absurd h1 ha
        · exact absurd h1 hb
  · rw [if_neg (by simpa using h1)]
    push_neg at h1
    by_cases h2 : acc.elem (stripDashes t) = true
    · rw [if_pos h2]
      constructor
      · exact Or.inl
      · rintro (hs | ⟨-, rfl⟩)
        · exact hs
        · rwa [List.elem_eq_mem, decide_eq_true_eq] at h2
    · rw [if_neg h2]
      constructor
      · intro hs
        rcases List.mem_append.mp hs with hs' | hs'
        · exact Or.inl hs'
        · exact Or.inr ⟨h1, by simpa using hs'⟩
      · rintro (hs | ⟨-, rfl⟩)
        · exact List.mem_append.mpr (Or.inl hs)
        · exact List.mem_append.mpr (Or.inr (by simp))

theorem foldl_ctxAdd_mem :
    ∀ (ts : List (List Char)) (acc : List (List Char)) (s : List Char),
      s ∈ ts.foldl ctxAdd acc ↔
        s ∈ acc ∨ ∃ t ∈ ts, (t ≠ trueTok ∧ t ≠ emptyTok) ∧ s = stripDashes t := by
  intro ts
  induction ts with
  | nil => intro acc s; simp
  | cons t ts ih =>
    intro acc s
    rw [List.foldl_cons, ih, ctxAdd_mem]
    constructor
    · rintro ((hs | hs) | ⟨u, hu, h⟩)
      · exact Or.inl hs
      · exact Or.inr ⟨t, by simp, hs⟩
      · exact Or.inr ⟨u, by simp [hu], h⟩
    · rintro (hs | ⟨u, hu, h⟩)
      · exact Or.inl (Or.inl hs)
      · rcases List.mem_cons.mp hu with rfl | hu'
        · exact Or.inl (Or.inr h)
        · exact Or.inr ⟨u, hu', h⟩

theorem ctxAdd_nodup {acc : List (List Char)} {t : List Char}
    (h : acc.Nodup) : (ctxAdd acc t).Nodup := by
  unfold ctxAdd
  by_cases h1 : (t = trueTok || t = emptyTok) = true
  · rwa [if_pos h1]
  · rw [if_neg h1]
    by_cases h2 : acc.elem (stripDashes t) = true
    · rwa [if_pos h2]
    · rw [if_neg h2]
      rw [List.nodup_append]
      refine ⟨h, List.nodup_singleton _, ?_⟩
      intro a ha hb
      rw [List.mem_singleton] at hb
      subst hb
      rw [List.elem_eq_mem, decide_eq_true_eq] at h2
      exact h2 ha

theorem foldl_ctxAdd_nodup :
    ∀ (ts : List (List Char)) (acc : List (List Char)),
      acc.Nodup → (ts.foldl ctxAdd acc).Nodup := by
  intro ts
  induction ts with
  | nil => intro acc h; exact h
  | cons t ts ih =>
    intro acc h
    rw [List.foldl_cons]
    exact ih _ (ctxAdd_nodup h)

theorem mem_get_full_context {kb : PrudensKnowledgeBase} {s : List Char} :
    s ∈ kb.get_full_context ↔
      ∃ r ∈ kb.rules, ∃ t ∈ r.body,
        (t ≠ trueTok ∧ t ≠ emptyTok) ∧ s = stripDashes t := by
  unfold PrudensKnowledgeBase.get_full_context
  rw [(List.perm_insertionSort ctxLe _).mem_iff]
  unfold fullContextRaw
  rw [foldl_ctxAdd_mem]
  simp only [List.not_mem_nil, false_or, List.mem_flatMap]
  constructor
  · rintro ⟨t, ⟨r, hr, ht⟩, h⟩
    exact ⟨r, hr, t, ht, h⟩
  · rintro ⟨r, hr, t, ht, h⟩
    exact ⟨t, ⟨r, hr, ht⟩, h⟩

theorem sorted_get_full_context (kb : PrudensKnowledgeBase) :
    List.Sorted ctxLe kb.get_full_context :=
  List.sorted_insertionSort ctxLe (fullContextRaw kb)

theorem nodup_get_full_context (kb : PrudensKnowledgeBase) :
    kb.get_full_context.Nodup :=
  ((List.perm_insertionSort ctxLe (fullContextRaw kb)).symm).nodup
    (foldl_ctxAdd_nodup _ [] List.nodup_nil)

/-! Section: Rendering lines and exchange objects by position -/

theorem to_string_no_nl {r : PrudensRule} {i : Nat}
    (hb : ∀ t ∈ r.body, ∀ c ∈ t, c ≠ '\n') (hh : ∀ c ∈ r.head, c ≠ '\n') :
    ∀ c ∈ r.to_string (.int i), c ≠ '\n' := by
  intro c hc
  rw [to_string_eq] at hc
  rcases List.mem_append.mp hc with hc' | hc'
  · rcases List.mem_append.mp hc' with hc'' | hc''
    · exact (natDigits_semi_nl c hc'').2
    · exact (sepSC_semi_nl c hc'').2
  · rcases List.mem_append.mp hc' with hc'' | hc''
    · rcases List.mem_append.mp hc'' with h3 | h3
      · rcases mem_joinSep h3 with h4 | ⟨t, ht, hct⟩
        · exact (commaSp_semi_nl c h4).2
        · exact hb t ht c hct
      · exact (sepImpl_semi_nl c h3).2
    · rcases List.mem_append.mp hc'' with h3 | h3
      · exact hh c h3
      · intro heq
        subst heq
        revert h3
        decide

theorem activeStatements_mem :
    ∀ (rs : List PrudensRule) (i : Nat) (u : List Char),
      u ∈ activeStatements i rs →
      ∃ r ∈ rs, ∃ j, u = r.to_string (.int j) := by
  intro rs
  induction rs with
  | nil => intro i u hu; exact absurd hu (List.not_mem_nil u)
  | cons r rs ih =>
    intro i u hu
    unfold activeStatements at hu
    by_cases ha : r.active = true
    · rw [if_pos ha] at hu
      rcases List.mem_cons.mp hu with rfl | hu'
      · exact ⟨r, by simp, i, rfl⟩
      · rcases ih (i + 1) u hu' with ⟨r', hr', j, hj⟩
        exact ⟨r', by simp [hr'], j, hj⟩
    · rw [if_neg ha] at hu
      rcases ih (i + 1) u hu with ⟨r', hr', j, hj⟩
      exact ⟨r', by simp [hr'], j, hj⟩

theorem activeStatements_enumFrom :
    ∀ (rs : List PrudensRule) (i : Nat),
      activeStatements (i + 1) rs =
        (List.enumFrom i rs).filterMap
          (fun p => if p.2.active then some (p.2.to_string (.int (p.1 + 1)))
                    else none) := by
  intro rs
  induction rs with
  | nil => intro i; rfl
  | cons r rs ih =>
    intro i
    rw [List.enumFrom_cons, List.filterMap_cons]
    by_cases ha : r.active = true
    · show (if r.active then r.to_string (.int (i + 1)) ::
          activeStatements (i + 1 + 1) rs else activeStatements (i + 1 + 1) rs) = _
      rw [if_pos ha, ih (i + 1)]
      simp [ha]
    · show (if r.active then r.to_string (.int (i + 1)) ::
          activeStatements (i + 1 + 1) rs else activeStatements (i + 1 + 1) rs) = _
      rw [if_neg ha, ih (i + 1)]
      simp [ha]

theorem activeRuleObjs_names :
    ∀ (rs : List PrudensRule) (i : Nat),
      (activeRuleObjs i rs).map (fun o => o.name) =
        ((List.enumFrom i rs).filter (fun p => p.2.active)).map
          (fun p => 'R' :: natDigits p.1) := by
  intro rs
  induction rs with
  | nil => intro i; rfl
  | cons r rs ih =>
    intro i
    rw [List.enumFrom_cons]
    unfold activeRuleObjs
    by_cases ha : r.active = true
    · rw [if_pos ha, List.map_cons, ih (i + 1), List.filter_cons]
      simp [ha]
    · rw [if_neg ha, ih (i + 1), List.filter_cons]
      simp [ha]

theorem activeRuleObjs_content :
    ∀ (rs : List PrudensRule) (i : Nat),
      (activeRuleObjs i rs).map (fun o => (o.body, o.head)) =
        (rs.filter (fun r => r.active)).map
          (fun r => (r.body.map to_prudens_literal, to_prudens_literal r.head)) := by
  intro rs
  induction rs with
  | nil => intro i; rfl
  | cons r rs ih =>
    intro i
    unfold activeRuleObjs
    by_cases ha : r.active = true
    · rw [if_pos ha, List.map_cons, ih (i + 1), List.filter_cons]
      simp [ha]
    · rw [if_neg ha, ih (i + 1), List.filter_cons]
      simp [ha]

/-! Section: Literal sign handling -/

theorem leading_dashes (t : List Char) :
    ∃ k, t = List.replicate k '-' ++ t.dropWhile (fun c => c == '-') := by
  refine ⟨(t.takeWhile (fun c => c == '-')).length, ?_⟩
  conv_lhs => rw [← List.takeWhile_append_dropWhile (fun c => c == '-') t]
  congr 1
  apply List.eq_replicate_of_mem
  intro b hb
  have := List.mem_takeWhile_imp hb
  rwa [beq_iff_eq] at this

theorem head_dropWhile_false {p : Char → Bool} :
    ∀ (l : List Char) (c : Char) (cs : List Char),
      l.dropWhile p = c :: cs → p c = false := by
  intro l
  induction l with
  | nil => intro c cs h; exact absurd h (by simp)
  | cons d l' ih =>
    intro c cs h
    rw [List.dropWhile_cons] at h
    by_cases hd : p d = true
    · rw [if_pos hd] at h
      exact ih c cs h
    · rw [if_neg hd] at h
      injection h with h1 _
      subst h1
      rwa [Bool.not_eq_true] at hd

theorem dash_free_of_not_contains {t : List Char} (h : t.contains '-' = false) :
    ∀ c ∈ t, (c == '-') = false := by
  intro c hc
  rw [beq_eq_false_iff_ne]
  rintro rfl
  have : t.elem '-' = true := by
    rw [List.elem_eq_mem, decide_eq_true_eq]
    exact hc
  rw [show t.contains '-' = t.elem '-' from rfl, this] at h
  exact absurd h (by decide)

/-! Section: Error-kind characterization -/

theorem from_string_missing {s a : List Char} {act : Bool}
    (h : (containsSub sepSC s && containsSub sepImpl s) = false) :
    PrudensRule.from_string s a act = .error .assertMalformedRule := by
  unfold PrudensRule.from_string
  rw [if_pos (by rw [h]; rfl)]

theorem from_string_eq_none {s a : List Char} {act : Bool}
    (h : (containsSub sepSC s && containsSub sepImpl s) = true)
    (h1 : (pySplit sepSC (pyRstripSemi (pyStrip s)))[1]? = none) :
    PrudensRule.from_string s a act = .error .indexErr := by
  unfold PrudensRule.from_string
  rw [if_neg (by rw [h]; decide), h1]

theorem from_string_eq_some {s a seg : List Char} {act : Bool}
    (h : (containsSub sepSC s && containsSub sepImpl s) = true)
    (h1 : (pySplit sepSC (pyRstripSemi (pyStrip s)))[1]? = some seg) :
    PrudensRule.from_string s a act =
      match pySplit sepImpl seg with
      | [ctx, hd] => Except.ok ⟨pySplit commaSp ctx, pyStrip hd, a, act⟩
      | _ => Except.error PyError.valueErr := by
  unfold PrudensRule.from_string
  rw [if_neg (by rw [h]; decide), h1]

theorem from_string_other {s a : List Char} {act : Bool}
    (h : (containsSub sepSC s && containsSub sepImpl s) = true) :
    PrudensRule.from_string s a act = .error .indexErr ∨
    PrudensRule.from_string s a act = .error .valueErr ∨
    ∃ r, PrudensRule.from_string s a act = .ok r := by
  rcases h1 : (pySplit sepSC (pyRstripSemi (pyStrip s)))[1]? with _ | seg
  · exact Or.inl (from_string_eq_none h h1)
  · rw [from_string_eq_some h h1]
    rcases h2 : pySplit sepImpl seg with _ | ⟨x, _ | ⟨y, _ | ⟨z, zs⟩⟩⟩
    · exact Or.inr (Or.inl rfl)
    · exact Or.inr (Or.inl rfl)
    · exact Or.inr (Or.inr ⟨_, rfl⟩)
    · exact Or.inr (Or.inl rfl)

theorem from_string_ne_kbErr (s a : List Char) (act : Bool) :
    PrudensRule.from_string s a act ≠ .error .assertMalformedKB := by
  rcases hA : (containsSub sepSC s && containsSub sepImpl s) with _ | _
  · rw [from_string_missing hA]
    simp
  · rcases from_string_other hA with h | h | ⟨r, h⟩ <;> rw [h] <;> simp

theorem parseRuleList_ne_kbErr : ∀ cs : List (List Char),
    parseRuleList cs ≠ .error .assertMalformedKB := by
  intro cs
  induction cs with
  | nil => simp [parseRuleList]
  | cons c cs ih =>
    intro hcontra
    unfold parseRuleList at hcontra
    rcases hf : PrudensRule.from_string c with e | r
    · rw [hf] at hcontra
      simp only [Except.error.injEq] at hcontra
      rw [hcontra] at hf
      exact from_string_ne_kbErr c [] true hf
    · rw [hf] at hcontra
      rcases hp : parseRuleList cs with e | rs
      · rw [hp] at hcontra
        simp only [Except.error.injEq] at hcontra
        rw [hcontra] at hp
        exact ih hp
      · rw [hp] at hcontra
        exact absurd hcontra (by simp)

theorem kb_from_string_missing {s : List Char}
    (h : kbMarker.isPrefixOf (pyStrip s) = false) :
    PrudensKnowledgeBase.from_string s = .error .assertMalformedKB := by
  unfold PrudensKnowledgeBase.from_string
  rw [if_pos (by rw [h]; rfl)]

theorem kb_from_string_present {s : List Char}
    (h : kbMarker.isPrefixOf (pyStrip s) = true) :
    PrudensKnowledgeBase.from_string s ≠ .error .assertMalformedKB := by
  unfold PrudensKnowledgeBase.from_string
  rw [if_neg (by rw [h]; decide)]
  intro hcontra
  rcases hp : parseRuleList
      (((pySplit [';']
          (pyStrip (pyLstripAny kbMarker
            (pyReplaceNlSpace (pyStrip s))))).filter
        (fun r => !r.isEmpty)).map pyStrip) with e | rs
  · rw [hp] at hcontra
    simp only [Except.error.injEq] at hcontra
    rw [hcontra] at hp
    exact parseRuleList_ne_kbErr _ hp
  · rw [hp] at hcontra
    exact absurd hcontra (by simp)

/-! Section: Claims -/

/-- Claim C1, counterexample: in a knowledge base of 3 rules where the 2nd is
inactive, `to_string` renders the active rules as `R1` and `R3` — the
`enumerate` counter runs over all rules before the `active` filter — and not
as the `R1`/`R2` numbering over the active subsequence that the claim
asserts. -/
theorem claim_C1_counterexample :
    kb3ex.to_string = strL "@KnowledgeBase\nR1 :: a implies b;\nR3 :: e implies f;" ∧
    (kb3ex.to_string ==
      strL "@KnowledgeBase\nR1 :: a implies b;\nR2 :: e implies f;") = false := by
  decide

/-- Claim C1 (amended): splitting the rendered block text on the newline
separator yields the `@KnowledgeBase` marker followed by one statement per
active rule in original order, each numbered `R<i>` where `i` is the rule's
1-based position in the FULL rule sequence (inactive rules are omitted but
their positions are not reused, so gaps appear after inactive rules),
provided no token contains a newline. -/
theorem claim_C1 (kb : PrudensKnowledgeBase) (h : noNlKB kb = true) :
    pySplit ['\n'] kb.to_string =
      kbMarker :: kb.rules.enum.filterMap
        (fun p => if p.2.active then some (p.2.to_string (.int (p.1 + 1)))
                  else none) := by
  have hchars : ∀ r ∈ kb.rules,
      (∀ t ∈ r.body, ∀ c ∈ t, c ≠ '\n') ∧ (∀ c ∈ r.head, c ≠ '\n') := by
    intro r hr
    rw [noNlKB, List.all_eq_true] at h
    have := h r hr
    rw [Bool.and_eq_true, List.all_eq_true, List.all_eq_true] at this
    constructor
    · intro t ht c hc
      have h2 := this.1 t ht
      rw [List.all_eq_true] at h2
      have := h2 c hc
      rwa [Bool.not_eq_true', beq_eq_false_iff_ne] at this
    · intro c hc
      have := this.2 c hc
      rwa [Bool.not_eq_true', beq_eq_false_iff_ne] at this
  have hsplit : pySplit ['\n']
      (joinSep ['\n'] (kbMarker :: activeStatements 1 kb.rules)) =
      kbMarker :: activeStatements 1 kb.rules := by
    refine pySplit_joinSep (by decide) _ (by simp) ?_
    intro p hp
    rcases List.mem_cons.mp hp with rfl | hp'
    · have hmk : ∀ d ∈ kbMarker, d ≠ '\n' := by decide
      exact noMid_of_head_notMem hmk
    · rcases activeStatements_mem kb.rules 1 p hp' with ⟨r, hr, j, rfl⟩
      exact noMid_of_head_notMem
        (to_string_no_nl (hchars r hr).1 (hchars r hr).2)
  show pySplit ['\n'] (joinSep ['\n'] (kbMarker :: activeStatements 1 kb.rules)) = _
  rw [hsplit]
  rw [show kb.rules.enum = List.enumFrom 0 kb.rules from rfl]
  rw [show (1 : Nat) = 0 + 1 from rfl]
  exact congrArg (kbMarker :: ·) (activeStatements_enumFrom kb.rules 0)

/-- Claim C1, witness: the amended statement evaluated on the
three-rule example knowledge base. -/
theorem claim_C1_witness :
    noNlKB kb3ex = true ∧
    pySplit ['\n'] kb3ex.to_string =
      kbMarker :: kb3ex.rules.enum.filterMap
        (fun p => if p.2.active then some (p.2.to_string (.int (p.1 + 1)))
                  else none) :=
  ⟨by decide, claim_C1 kb3ex (by decide)⟩

/-- Claim C2, counterexample: the exchange-form object of the three-rule
example names its rule objects `R0` and `R2` — `enumerate` is 0-based and runs
over all rules — not `R1`/`R2` by 1-based position among active rules as the
claim asserts. -/
theorem claim_C2_counterexample :
    (kb3ex.to_prudens_kb_json_object).kb.map (fun o => o.name) =
      [strL "R0", strL "R2"] ∧
    ((kb3ex.to_prudens_kb_json_object).kb.map (fun o => o.name) ==
      [strL "R1", strL "R2"]) = false := by
  decide

/-- Claim C2 (amended): the exchange-form object contains one rule object per
active rule in original order — its body/head literal objects are exactly the
parsed literals of that rule — and each object is named `R<i>` where `i` is
the rule's 0-based position in the FULL rule sequence (so the names need not
match the 1-based numbering of block-text rendering, and gaps appear after
inactive rules). -/
theorem claim_C2 (kb : PrudensKnowledgeBase) :
    (kb.to_prudens_kb_json_object).kb.map (fun o => o.name) =
      ((kb.rules.enum).filter (fun p => p.2.active)).map
        (fun p => 'R' :: natDigits p.1) ∧
    (kb.to_prudens_kb_json_object).kb.map (fun o => (o.body, o.head)) =
      (kb.rules.filter (fun r => r.active)).map
        (fun r => (r.body.map to_prudens_literal, to_prudens_literal r.head)) ∧
    (kb.to_prudens_kb_json_object).type = strL "output" ∧
    (kb.to_prudens_kb_json_object).imports = [] ∧
    (kb.to_prudens_kb_json_object).warnings = [] := by
  refine ⟨?_, ?_, rfl, rfl, rfl⟩
  · show (activeRuleObjs 0 kb.rules).map (fun o => o.name) = _
    rw [show kb.rules.enum = List.enumFrom 0 kb.rules from rfl]
    exact activeRuleObjs_names kb.rules 0
  · exact activeRuleObjs_content kb.rules 0

/-- Claim C3, counterexample: `to_prudens_literal` strips ALL leading dashes
(`"--a"` yields name `"a"`, not `"-a"` as the claim's
"exactly one leading dash" would give), and an interior dash DOES affect the
sign (`"a-b"` has no leading dash yet gets `sign = false`). -/
theorem claim_C3_counterexample :
    (to_prudens_literal (strL "--a")).name = strL "a" ∧
    ((to_prudens_literal (strL "--a")).name == strL "-a") = false ∧
    (to_prudens_literal (strL "a-b")).sign = false := by
  decide

/-- Claim C3 (amended): parsing a literal from a text token strips ALL leading
dashes to obtain the name (so the name never begins with a dash), and sets
`sign` to true if and only if the token contains no dash anywhere — an
interior dash makes the sign negative even without a leading dash. -/
theorem claim_C3 (t : List Char) :
    (∃ k, t = List.replicate k '-' ++ (to_prudens_literal t).name) ∧
    ((to_prudens_literal t).name.head? == some '-') = false ∧
    (to_prudens_literal t).sign = !(t.contains '-') := by
  refine ⟨leading_dashes t, ?_, rfl⟩
  rcases hh : (to_prudens_literal t).name.head? with _ | c
  · rfl
  · have hc : ((fun c => c == '-') c) = false := by
      rcases List.head?_eq_some_iff.mp hh with ⟨cs, hcs⟩
      exact head_dropWhile_false t c cs hcs
    rw [Option.some_beq_some]
    exact hc

/-- Claim C4, counterexample: `get_full_context` checks the reserved tokens
against the RAW body token before any stripping, so the token `"-true"` is not
excluded and contributes `"true"` to the context — while the claim (exclusion
of the reserved names regardless of sign, modelled by `specFullContextC4`)
would yield the empty context. -/
theorem claim_C4_counterexample :
    PrudensKnowledgeBase.get_full_context ⟨[⟨[strL "-true"], ['h'], [], true⟩]⟩ =
      [strL "true"] ∧
    specFullContextC4 ⟨[⟨[strL "-true"], ['h'], [], true⟩]⟩ = [] := by
  decide

/-- Claim C4 (amended): `get_full_context` returns a duplicate-free list,
sorted in natural order (digit runs numerically, otherwise case-insensitive
codepoint order), whose members are exactly the body tokens of ALL rules
(active and inactive alike) that are not RAW-equal to `"true"` or `"empty"`,
each with ALL dash characters removed (not merely a leading sign dash); in
particular `"-true"` is not excluded. -/
theorem claim_C4 (kb : PrudensKnowledgeBase) :
    (∀ s, s ∈ kb.get_full_context ↔
      ∃ r ∈ kb.rules, ∃ t ∈ r.body,
        (t ≠ trueTok ∧ t ≠ emptyTok) ∧ s = stripDashes t) ∧
    List.Sorted ctxLe kb.get_full_context ∧
    kb.get_full_context.Nodup :=
  ⟨fun _ => mem_get_full_context, sorted_get_full_context kb,
    nodup_get_full_context kb⟩

/-- Claim C5, counterexample: two rules equal under `__eq__` (same body token
set, same head) whose dataclass-generated hashes are computed from different
field tuples — the bodies differ in order — so hashing does not derive from
`(set(body), head)` and equal rules need not have equal hashes. -/
theorem claim_C5_counterexample :
    ruleEqb ⟨[['a'], ['b']], ['c'], [], true⟩ ⟨[['b'], ['a']], ['c'], [], true⟩ =
      true ∧
    (ruleHashFields ⟨[['a'], ['b']], ['c'], [], true⟩ ==
      ruleHashFields ⟨[['b'], ['a']], ['c'], [], true⟩) = false := by
  decide

/-- Claim C5 (amended): two rules are equal iff their head strings are equal
and their body token sets are equal (order irrelevant, duplicates collapse);
hashing, however, is the dataclass-generated hash of the ordered field tuple
`(body, head, added_as, active)` — rules with identical field tuples are
equal, but equal rules (bodies reordered, or differing `added_as`/`active`)
need not hash alike. -/
theorem claim_C5 (r₁ r₂ : PrudensRule) :
    (ruleEqb r₁ r₂ = true ↔
      (∀ t, t ∈ r₁.body ↔ t ∈ r₂.body) ∧ r₁.head = r₂.head) ∧
    (ruleHashFields r₁ = ruleHashFields r₂ → ruleEqb r₁ r₂ = true) := by
  refine ⟨ruleEqb_iff, ?_⟩
  intro h
  unfold ruleHashFields at h
  have h1 : r₁.body = r₂.body := congrArg Prod.fst h
  have h2 : r₁.head = r₂.head := congrArg (fun p => p.2.1) h
  exact ruleEqb_iff.mpr ⟨fun t => by rw [h1], h2⟩

/-- Claim C5, witness: the hypothesis-bearing direction applied at a concrete
rule with equal hash fields. -/
theorem claim_C5_witness :
    ruleEqb ⟨[['a']], ['b'], [], true⟩ ⟨[['a']], ['b'], [], true⟩ = true :=
  (claim_C5 ⟨[['a']], ['b'], [], true⟩ ⟨[['a']], ['b'], [], true⟩).2 rfl

/-- Claim C6, counterexample: a knowledge base meeting all the conditions the
claim states (all rules active; tokens non-empty and free of the delimiter
substrings `";"`, `", "`, `" :: "`, `" implies "`, newline) whose rendered
block text parses back to a knowledge base NOT equal to the original: the
head token `" c"` starts with a space, which `head.strip()` removes. -/
theorem claim_C6_counterexample :
    claimC6_ok kbC6ex = true ∧
    PrudensKnowledgeBase.from_string kbC6ex.to_string =
      .ok ⟨[⟨[['a']], ['c'], [], true⟩]⟩ ∧
    kbEqb ⟨[⟨[['a']], ['c'], [], true⟩]⟩ kbC6ex = false := by
  decide

/-- Claim C6 (amended): for every knowledge base whose rules are all active,
each with a non-empty body, whose body and head tokens are non-empty and
contain no whitespace, comma, semicolon or colon characters, and in which no
body token after the first is the bare word `implies`, parsing the rendered
block text succeeds and yields a knowledge base equal to the original under
the order-sensitive knowledge-base equality (which compares rules with the
set-based rule equality, ignoring `added_as`/`active`). -/
theorem claim_C6 (kb : PrudensKnowledgeBase) (h : allActiveSafe kb = true) :
    ∃ kb', PrudensKnowledgeBase.from_string kb.to_string = .ok kb' ∧
      kbEqb kb' kb = true :=
  ⟨_, kb_round_trip kb h, kb_parsed_eq kb.rules⟩

/-- Claim C6, witness: the amended round trip evaluated on a concrete
one-rule knowledge base. -/
theorem claim_C6_witness :
    allActiveSafe kbRT = true ∧
    ∃ kb', PrudensKnowledgeBase.from_string kbRT.to_string = .ok kb' ∧
      kbEqb kb' kbRT = true :=
  ⟨by decide, claim_C6 kbRT (by decide)⟩

/-- Claim C7, counterexample: a rule meeting the claim's token conditions that
does NOT round trip for every rule-name: with the verbatim name `"x :: y"`
(allowed by the claim, which admits any string) the rendered statement
contains `" :: "` twice, the segment taken by `split(" :: ")[1]` is `"y"`, and
unpacking its `" implies "` split raises `ValueError`. -/
theorem claim_C7_counterexample :
    claimTokOk ⟨[['a']], ['b'], [], true⟩ = true ∧
    PrudensRule.from_string
      (PrudensRule.to_string ⟨[['a']], ['b'], [], true⟩ (.str (strL "x :: y"))) =
      .error .valueErr := by
  decide

/-- Claim C7 (amended): for every rule with a non-empty body whose body and
head tokens are non-empty and contain no whitespace, comma, semicolon or
colon characters, with no body token after the first equal to the bare word
`implies`, and for every rule-name whose rendered text has at least one
non-whitespace character and no colon (integer names `R<i>` and the omitted
default `R` always qualify), parsing the rendered statement yields a rule
equal to the original under the set-based rule equality. -/
theorem claim_C7 (r : PrudensRule) (nm : RuleName)
    (hr : safeRule r = true) (hn : safeNameB nm.render = true) :
    ∃ r', PrudensRule.from_string (r.to_string nm) = .ok r' ∧
      ruleEqb r' r = true := by
  have hs := safeRule_spec hr
  have h1 : ∃ c ∈ nm.render, pyWS c = false := by
    have h' := ((Bool.and_eq_true _ _).mp hn).1
    rw [List.any_eq_true] at h'
    rcases h' with ⟨c, hc, hpc⟩
    exact ⟨c, hc, by rwa [Bool.not_eq_true'] at hpc⟩
  have h2 : ∀ c ∈ nm.render, c ≠ ':' := by
    have h' := ((Bool.and_eq_true _ _).mp hn).2
    rw [List.all_eq_true] at h'
    intro c hc
    have := h' c hc
    rwa [Bool.not_eq_true', beq_eq_false_iff_ne] at this
  exact ⟨_, rule_round_trip r nm hs.1 hs.2.1 hs.2.2.1 hs.2.2.2 h1 h2,
    ruleEqb_fields r.body r.head [] r.added_as true r.active⟩

/-- Claim C7, witness: the amended round trip evaluated on a concrete rule
with a concrete verbatim rule-name. -/
theorem claim_C7_witness :
    safeRule (⟨[['a'], ['-', 'b']], ['c'], [], true⟩ : PrudensRule) = true ∧
    safeNameB (RuleName.str (strL "myName")).render = true ∧
    ∃ r', PrudensRule.from_string
        (PrudensRule.to_string ⟨[['a'], ['-', 'b']], ['c'], [], true⟩
          (.str (strL "myName"))) = .ok r' ∧
      ruleEqb r' ⟨[['a'], ['-', 'b']], ['c'], [], true⟩ = true :=
  ⟨by decide, by decide, claim_C7 _ _ (by decide) (by decide)⟩

/-- Claim C8, counterexample: the token `"a-b"` has no leading dash (so "at
most one leading `-`" holds) and its parsed name `"a-b"` has no dash at
position 0, yet rendering the parsed literal gives `"-a-b"` ≠ `"a-b"`: the
interior dash sets `sign = false` while `lstrip` removes nothing. -/
theorem claim_C8_counterexample :
    ((strL "a-b").head? == some '-') = false ∧
    ((to_prudens_literal (strL "a-b")).name.head? == some '-') = false ∧
    (to_prudens_literal (strL "a-b")).to_string = strL "-a-b" ∧
    (strL "-a-b" == strL "a-b") = false := by
  decide

/-- Claim C8 (amended): rendering the literal parsed from a token `t` returns
`t` exactly, provided that either `t` contains no dash at all, or `t` begins
with a dash and its second character (if any) is not a dash — i.e. at most one
leading dash AND no interior dash unless the token begins with the sign
dash. -/
theorem claim_C8 (t : List Char) (h : signSafe t = true) :
    (to_prudens_literal t).to_string = t := by
  unfold signSafe at h
  rcases (Bool.or_eq_true _ _).mp h with h1 | h1
  · have hcont : t.contains '-' = false := by rwa [Bool.not_eq_true'] at h1
    have hdf := dash_free_of_not_contains hcont
    have hs : (to_prudens_literal t).sign = true := by
      show (!(t.elem '-')) = true
      exact h1
    unfold PrudensLiteral.to_string
    rw [if_pos hs]
    exact dropWhile_id_of_all hdf
  · rw [Bool.and_eq_true] at h1
    have h2 : t.head? = some '-' := by
      have := h1.1
      rwa [beq_iff_eq] at this
    rcases List.head?_eq_some_iff.mp h2 with ⟨t', rfl⟩
    have h3 : (t'.head? == some '-') = false := by
      have := h1.2
      rw [Bool.not_eq_true'] at this
      simpa using this
    have hsign : (to_prudens_literal ('-' :: t')).sign = false := by
      show (!(('-' :: t').elem '-')) = false
      simp
    have hname : (to_prudens_literal ('-' :: t')).name = t' := by
      show ('-' :: t').dropWhile (fun c => c == '-') = t'
      rw [List.dropWhile_cons, if_pos (by decide)]
      rcases ht' : t'.head? with _ | c
      · rw [List.head?_eq_none_iff.mp ht']
        rfl
      · rcases List.head?_eq_some_iff.mp ht' with ⟨u, rfl⟩
        rw [List.dropWhile_cons, if_neg ?_]
        rw [List.head?_cons, Option.some_beq_some] at h3
        simp [h3]
    unfold PrudensLiteral.to_string
    rw [if_neg (by rw [hsign]; decide), hname]

/-- Claim C8, witness: the amended round trip evaluated on the token
`"-a-b"`, which begins with its single leading dash. -/
theorem claim_C8_witness :
    signSafe (strL "-a-b") = true ∧
    (to_prudens_literal (strL "-a-b")).to_string = strL "-a-b" :=
  ⟨by decide, claim_C8 _ (by decide)⟩

/-- Claim C9, counterexample: the statement `"a implies b :: c"` contains both
`" :: "` and `" implies "`, yet it does not parse successfully: the segment
after `split(" :: ")[1]` is `"c"`, whose `" implies "` split has one piece, so
the two-variable unpacking raises `ValueError` — refuting "every statement
containing both parses successfully". -/
theorem claim_C9_counterexample :
    containsSub sepSC (strL "a implies b :: c") = true ∧
    containsSub sepImpl (strL "a implies b :: c") = true ∧
    PrudensRule.from_string (strL "a implies b :: c") = .error .valueErr := by
  decide

/-- Claim C9 (amended): rule parsing fails with the malformed-rule error
exactly when `" :: "` or `" implies "` is absent from the statement — but a
statement containing both may still fail, with `IndexError` or `ValueError`,
when the delimiters are positioned so that the second `" :: "` segment does
not split into exactly two pieces on `" implies "`; knowledge-base parsing
fails with the malformed-block error exactly when the trimmed text does not
begin with `"@KnowledgeBase"`.  (In every failure case the model returns an
error and no partial result.) -/
theorem claim_C9 :
    (∀ (s a : List Char) (act : Bool),
      PrudensRule.from_string s a act = .error .assertMalformedRule ↔
        (containsSub sepSC s && containsSub sepImpl s) = false) ∧
    (∀ s : List Char,
      PrudensKnowledgeBase.from_string s = .error .assertMalformedKB ↔
        kbMarker.isPrefixOf (pyStrip s) = false) := by
  constructor
  · intro s a act
    constructor
    · intro hres
      rcases hA : (containsSub sepSC s && containsSub sepImpl s) with _ | _
      · rfl
      · rcases from_string_other hA with h' | h' | ⟨r, h'⟩ <;>
          rw [h'] at hres <;> simp at hres
    · exact from_string_missing
  · intro s
    constructor
    · intro hres
      rcases hA : kbMarker.isPrefixOf (pyStrip s) with _ | _
      · rfl
      · exact absurd hres (kb_from_string_present hA)
    · exact kb_from_string_missing

/-- Claim C10 (confirmed): rule equality ignores `added_as` and `active`
entirely — two rules identical except in those fields compare equal — and
since knowledge-base equality compares the rule sequences elementwise with
rule equality, two knowledge bases can be equal as values yet render to
different block text (one omits from its output a rule the other renders,
because only `active` differs). -/
theorem claim_C10 :
    (∀ (b : List (List Char)) (hd a₁ a₂ : List Char) (c₁ c₂ : Bool),
      ruleEqb ⟨b, hd, a₁, c₁⟩ ⟨b, hd, a₂, c₂⟩ = true) ∧
    kbEqb kbD1 kbD2 = true ∧
    (kbD1.to_string == kbD2.to_string) = false :=
  ⟨ruleEqb_fields, by decide, by decide⟩

example : PrudensRule.from_string (strL "R1 :: a, -b implies c;") =
    .ok { body := [['a'], ['-', 'b']], head := ['c'] } := by decide

example : PrudensRule.from_string (strL "nope") = .error .assertMalformedRule := by decide

example : PrudensRule.from_string (strL "a implies b :: c") = .error .valueErr := by decide

example : PrudensRule.from_string (strL " :: a implies b") = .error .indexErr := by decide

example :
    PrudensKnowledgeBase.from_string (strL "@KnowledgeBase R1 :: a, -b implies c;") =
      .ok ⟨[{ body := [['a'], ['-', 'b']], head := ['c'] }]⟩ := by decide

example :
    (PrudensKnowledgeBase.to_string ⟨[{ body := [['a'], ['-', 'b']], head := ['c'] }]⟩) =
      strL "@KnowledgeBase\nR1 :: a, -b implies c;" := by decide

example :
    PrudensKnowledgeBase.get_full_context
        ⟨[{ body := [strL "item2", strL "item10", strL "item1"], head := ['c'] }]⟩ =
      [strL "item1", strL "item2", strL "item10"] := by decide
